import Mathlib

/-!
Verification of the damfair balance-and-settlement engine.

The source (`src/utils.ts`, `src/components/DebtCalculator.tsx`) computes, from
participants and expenses, per-participant totals (`calculateParticipantStats`),
net balances rounded to two decimals (`balanceArray`), and a greedy settlement
plan (`calculateSettlements`).

Modelling choices:
* currency amounts are exact rationals `ℚ`; the source's `0.01` tolerance exists
  precisely to absorb floating-point noise, and every numerical claim below is
  stated with those tolerances;
* JavaScript `Math.round x` is `⌊x + 1/2⌋` (halves round toward `+∞`), so
  `roundToTwoDecimals x = ⌊100 x + 1/2⌋ / 100`;
* the JS `Map` used by `calculateParticipantStats` is an insertion-ordered
  association list with unique keys; `Map.set` on a present key overwrites in
  place, on an absent key appends;
* JavaScript `Array.prototype.sort` is a stable sort, so its result is the
  unique stable sort for the given comparator; we embed it as insertion sort,
  which is that stable sort;
* the `while` loop of `calculateSettlements` is embedded with explicit fuel;
  every iteration of the source loop advances at least one of the two cursors,
  so fuel `creditors.length + debtors.length` runs the loop to completion
  (proved below as fuel-irrelevance).
-/

namespace Damfair

/-- `{ name, amount }` net balance record (`Balance` in `types.ts`). -/
structure Balance where
  name : String
  amount : ℚ
deriving DecidableEq

/-- `{ from, to, amount }` transfer record (`Settlement` in `types.ts`). -/
structure Settlement where
  «from» : String
  «to» : String
  amount : ℚ
deriving DecidableEq

/-- Participant record; only `name` matters to the engine. -/
structure Participant where
  id : String
  name : String
deriving DecidableEq

/-- Expense record; the engine reads `amount`, `payer` and `involved`. -/
structure Expense where
  id : String
  description : String
  amount : ℚ
  payer : String
  involved : List String
  date : String
deriving DecidableEq

/-- Per-participant accumulator (`{ totalPaid, totalOwed }`). -/
structure Stats where
  totalPaid : ℚ
  totalOwed : ℚ
deriving DecidableEq

/-- `roundToTwoDecimals` from `utils.ts`: `Math.round(amount * 100) / 100`,
with JS `Math.round x = ⌊x + 1/2⌋`. -/
def roundToTwoDecimals (x : ℚ) : ℚ :=
  (⌊x * 100 + 1 / 2⌋ : ℚ) / 100

/-- Insertion-ordered map from names to stats, mirroring the JS `Map`. -/
abbrev StatsMap := List (String × Stats)

/-- JS `Map.set`: overwrite an existing key in place, else append. -/
def mapSet (m : StatsMap) (k : String) (v : Stats) : StatsMap :=
  if k ∈ m.map Prod.fst then
    m.map (fun p => if p.1 = k then (p.1, v) else p)
  else
    m ++ [(k, v)]

/-- JS `Map.get` followed by in-place mutation of the stats record when the
key is present (`if (stats) stats.field += …`); a miss is a no-op. -/
def mapUpdate (m : StatsMap) (k : String) (f : Stats → Stats) : StatsMap :=
  m.map (fun p => if p.1 = k then (p.1, f p.2) else p)

/-- `calculateParticipantStats` from `utils.ts`: initialize every participant
name to `{0, 0}`, then for each expense credit the payer's `totalPaid` and add
`amount / involved.length` to each involved name's `totalOwed`; lookups of
unknown names are no-ops.  When `involved` is empty the source computes
`sharePerPerson = amount / 0` (an IEEE infinity) but never reads it, because
the loop over `involved` has no iterations; in this model `ℚ` division by zero
is likewise never read. -/
def calculateParticipantStats (participants : List Participant)
    (expenses : List Expense) : StatsMap :=
  let init := participants.foldl (fun m p => mapSet m p.name ⟨0, 0⟩) []
  expenses.foldl (fun m e =>
    let sharePerPerson := e.amount / (e.involved.length : ℚ)
    let m1 := mapUpdate m e.payer (fun s => ⟨s.totalPaid + e.amount, s.totalOwed⟩)
    e.involved.foldl
      (fun m2 n => mapUpdate m2 n (fun s => ⟨s.totalPaid, s.totalOwed + sharePerPerson⟩))
      m1) init

/-- `balanceArray` from `DebtCalculator.tsx`: one balance per map entry, with
`amount = roundToTwoDecimals (totalPaid - totalOwed)`. -/
def balanceArray (m : StatsMap) : List Balance :=
  m.map (fun p => ⟨p.1, roundToTwoDecimals (p.2.totalPaid - p.2.totalOwed)⟩)

/-- Descending-by-amount comparator used for the creditor sort
(`(a, b) => b.amount - a.amount`). -/
def creditorGE (a b : Balance) : Prop := b.amount ≤ a.amount

/-- Ascending-by-amount comparator used for the debtor sort
(`(a, b) => a.amount - b.amount`). -/
def debtorLE (a b : Balance) : Prop := a.amount ≤ b.amount

instance : DecidableRel creditorGE := fun a b => inferInstanceAs (Decidable (b.amount ≤ a.amount))

instance : DecidableRel debtorLE := fun a b => inferInstanceAs (Decidable (a.amount ≤ b.amount))

instance : IsTotal Balance creditorGE := ⟨fun a b => le_total b.amount a.amount⟩

instance : IsTrans Balance creditorGE := ⟨fun _ _ _ h h' => le_trans h' h⟩

instance : IsTotal Balance debtorLE := ⟨fun a b => le_total a.amount b.amount⟩

instance : IsTrans Balance debtorLE := ⟨fun _ _ _ h h' => le_trans h h'⟩

/-- `balances.filter(b => b.amount > 0.01)` sorted descending (stable). -/
def creditorsOf (bs : List Balance) : List Balance :=
  (bs.filter (fun b => decide (1 / 100 < b.amount))).insertionSort creditorGE

/-- `balances.filter(b => b.amount < -0.01)` sorted ascending (stable). -/
def debtorsOf (bs : List Balance) : List Balance :=
  (bs.filter (fun b => decide (b.amount < -(1 / 100)))).insertionSort debtorLE

/-- The `while` loop of `calculateSettlements`.  The cursors are embedded by
dropping settled list prefixes: the head of each list is the current creditor
resp. debtor, carrying its remaining amount.  `fuel` bounds the number of
iterations; every source iteration advances at least one cursor, so fuel
`cs.length + ds.length` is never exhausted (see `settleLoop_fuel_eq`). -/
def settleLoop : ℕ → List Balance → List Balance → List Settlement
  | 0, _, _ => []
  | _ + 1, [], _ => []
  | _ + 1, _ :: _, [] => []
  | fuel + 1, c :: cs, d :: ds =>
    if |c.amount| < 1 / 100 ∨ |d.amount| < 1 / 100 then
      settleLoop fuel (if |c.amount| < 1 / 100 then cs else c :: cs)
        (if |d.amount| < 1 / 100 then ds else d :: ds)
    else
      ⟨d.name, c.name, roundToTwoDecimals (min c.amount |d.amount|)⟩ ::
        settleLoop fuel
          (if |roundToTwoDecimals (c.amount - min c.amount |d.amount|)| < 1 / 100 then cs
           else ⟨c.name, roundToTwoDecimals (c.amount - min c.amount |d.amount|)⟩ :: cs)
          (if |roundToTwoDecimals (d.amount + min c.amount |d.amount|)| < 1 / 100 then ds
           else ⟨d.name, roundToTwoDecimals (d.amount + min c.amount |d.amount|)⟩ :: ds)

/-- `calculateSettlements` from `DebtCalculator.tsx`. -/
def calculateSettlements (balanceArr : List Balance) : List Settlement :=
  let creditors := creditorsOf balanceArr
  let debtors := debtorsOf balanceArr
  settleLoop (creditors.length + debtors.length) creditors debtors

/-- Total amount a settlement list sends *to* the name `n`. -/
def paidTo (n : String) (ss : List Settlement) : ℚ :=
  (ss.map (fun s => if s.«to» = n then s.amount else 0)).sum

/-- Total amount a settlement list sends *from* the name `n`. -/
def paidBy (n : String) (ss : List Settlement) : ℚ :=
  (ss.map (fun s => if s.«from» = n then s.amount else 0)).sum

/-- Result of applying every settlement to an original balance, debtor's
balance `+= amount`, creditor's balance `-= amount` (spec §8). -/
def applySettlements (ss : List Settlement) (b : Balance) : ℚ :=
  b.amount + paidBy b.name ss - paidTo b.name ss

/-- Distinct names in order of first occurrence — the key sequence of the JS
`Map` built by repeated `set`. -/
def dedupFirst (l : List String) : List String :=
  l.foldl (fun acc n => if n ∈ acc then acc else acc ++ [n]) []

/-- Closed form: total the name `n` paid over an expense list. -/
def paidSum (n : String) (es : List Expense) : ℚ :=
  (es.map (fun e => if e.payer = n then e.amount else 0)).sum

/-- Closed form: total the name `n` owes over an expense list (one equal share
per occurrence of `n` in `involved`). -/
def owedSum (n : String) (es : List Expense) : ℚ :=
  (es.map (fun e => (e.involved.count n : ℚ) * (e.amount / (e.involved.length : ℚ)))).sum

/-- Modelled from the spec: §4.1 requires a conforming implementation to round
`totalPaid` and `totalOwed` independently to two decimals and then round their
difference (the claim C4 formula); stated here to compare against the source's
`balanceArray`, which rounds only the difference of the raw totals. -/
def specNetBalance (s : Stats) : ℚ :=
  roundToTwoDecimals (roundToTwoDecimals s.totalPaid - roundToTwoDecimals s.totalOwed)


/-! ### Rounding lemmas -/

theorem roundToTwoDecimals_monotone {x y : ℚ} (h : x ≤ y) :
    roundToTwoDecimals x ≤ roundToTwoDecimals y := by
  unfold roundToTwoDecimals
  have : (⌊x * 100 + 1 / 2⌋ : ℤ) ≤ ⌊y * 100 + 1 / 2⌋ := by
    apply Int.floor_le_floor
    nlinarith
  have h2 : ((⌊x * 100 + 1 / 2⌋ : ℤ) : ℚ) ≤ ((⌊y * 100 + 1 / 2⌋ : ℤ) : ℚ) := by
    exact_mod_cast this
  linarith

theorem roundToTwoDecimals_zero : roundToTwoDecimals 0 = 0 := by
  unfold roundToTwoDecimals
  norm_num

/-- A rational that is an integer number of cents. -/
def IsCents (q : ℚ) : Prop := ∃ k : ℤ, q = k / 100

theorem IsCents.zero : IsCents 0 := ⟨0, by norm_num⟩

theorem IsCents.add {a b : ℚ} (ha : IsCents a) (hb : IsCents b) : IsCents (a + b) := by
  obtain ⟨j, rfl⟩ := ha
  obtain ⟨k, rfl⟩ := hb
  exact ⟨j + k, by push_cast; ring⟩

theorem IsCents.neg {a : ℚ} (ha : IsCents a) : IsCents (-a) := by
  obtain ⟨j, rfl⟩ := ha
  exact ⟨-j, by push_cast; ring⟩

theorem IsCents.sub {a b : ℚ} (ha : IsCents a) (hb : IsCents b) : IsCents (a - b) := by
  simpa [sub_eq_add_neg] using ha.add hb.neg

theorem IsCents.abs {a : ℚ} (ha : IsCents a) : IsCents |a| := by
  rcases abs_choice a with h | h <;> rw [h]
  · exact ha
  · exact ha.neg

theorem IsCents.min {a b : ℚ} (ha : IsCents a) (hb : IsCents b) : IsCents (min a b) := by
  rcases min_choice a b with h | h <;> rw [h]
  · exact ha
  · exact hb

theorem roundToTwoDecimals_cents {a : ℚ} (ha : IsCents a) : roundToTwoDecimals a = a := by
  obtain ⟨k, rfl⟩ := ha
  unfold roundToTwoDecimals
  have h1 : ((k : ℚ) / 100) * 100 + 1 / 2 = (k : ℚ) + 1 / 2 := by ring
  rw [h1]
  have h2 : ⌊(k : ℚ) + 1 / 2⌋ = k := by
    rw [add_comm, Int.floor_add_int]
    norm_num
  rw [h2]

/-- The cent value of a nonnegative sub-tolerance cents amount is zero. -/
theorem cents_small_nonneg_eq_zero {a : ℚ} (ha : IsCents a) (h0 : 0 ≤ a)
    (hlt : |a| < 1 / 100) : a = 0 := by
  obtain ⟨k, rfl⟩ := ha
  rw [abs_of_nonneg h0] at hlt
  have hk0 : (0 : ℚ) ≤ (k : ℚ) := by
    by_contra hneg
    push_neg at hneg
    have : (k : ℚ) / 100 < 0 := by linarith
    linarith
  have hklt : (k : ℚ) < 1 := by linarith
  have : k = 0 := by
    have h1 : (0 : ℤ) ≤ k := by exact_mod_cast hk0
    have h2 : k < 1 := by exact_mod_cast hklt
    omega
  rw [this]
  norm_num

theorem cents_small_nonpos_eq_zero {a : ℚ} (ha : IsCents a) (h0 : a ≤ 0)
    (hlt : |a| < 1 / 100) : a = 0 := by
  have := cents_small_nonneg_eq_zero ha.neg (by linarith) (by rwa [abs_neg])
  linarith

/-- A cents amount with absolute value below the tolerance and not equal to
`±0.01` nor in the open middle: more precisely, cents with `|a| < 1/100` means
`a = 0` is false in general (e.g. `a = 1/200` is not cents); for cents the
only values with `|a| ≤ 1/100` are `-1/100, 0, 1/100`. -/
theorem cents_le_tolerance {a : ℚ} (ha : IsCents a) (h : |a| ≤ 1 / 100) :
    a = -(1 / 100) ∨ a = 0 ∨ a = 1 / 100 := by
  obtain ⟨k, rfl⟩ := ha
  rw [abs_le] at h
  have h1 : (-1 : ℚ) ≤ (k : ℚ) := by linarith [h.1]
  have h2 : (k : ℚ) ≤ 1 := by linarith [h.2]
  have h1' : (-1 : ℤ) ≤ k := by exact_mod_cast h1
  have h2' : k ≤ 1 := by exact_mod_cast h2
  interval_cases k
  · left; norm_num
  · right; left; norm_num
  · right; right; norm_num

/-- `1/100 < a` for cents `a` implies `2/100 ≤ a`. -/
theorem cents_gt_tolerance {a : ℚ} (ha : IsCents a) (h : 1 / 100 < a) : 2 / 100 ≤ a := by
  obtain ⟨k, rfl⟩ := ha
  have h1 : (1 : ℚ) < (k : ℚ) := by linarith
  have h1' : (1 : ℤ) < k := by exact_mod_cast h1
  have : (2 : ℤ) ≤ k := by omega
  have : (2 : ℚ) ≤ (k : ℚ) := by exact_mod_cast this
  linarith

/-! ### Small list-sum toolkit -/

theorem list_sum_map_add {α : Type} (l : List α) (f g : α → ℚ) :
    (l.map (fun a => f a + g a)).sum = (l.map f).sum + (l.map g).sum := by
  induction l with
  | nil => simp
  | cons a l ih => simp [ih]; ring

theorem list_sum_nonneg {α : Type} (l : List α) (f : α → ℚ)
    (h : ∀ a ∈ l, 0 ≤ f a) : 0 ≤ (l.map f).sum := by
  induction l with
  | nil => simp
  | cons a l ih =>
    simp only [List.map_cons, List.sum_cons]
    have := h a (List.mem_cons_self a l)
    have := ih (fun x hx => h x (List.mem_cons_of_mem a hx))
    linarith

theorem list_sum_nonpos {α : Type} (l : List α) (f : α → ℚ)
    (h : ∀ a ∈ l, f a ≤ 0) : (l.map f).sum ≤ 0 := by
  induction l with
  | nil => simp
  | cons a l ih =>
    simp only [List.map_cons, List.sum_cons]
    have := h a (List.mem_cons_self a l)
    have := ih (fun x hx => h x (List.mem_cons_of_mem a hx))
    linarith

theorem list_abs_sum_le {α : Type} (l : List α) (f : α → ℚ) (c : ℚ)
    (h : ∀ a ∈ l, |f a| ≤ c) : |(l.map f).sum| ≤ (l.length : ℚ) * c := by
  induction l with
  | nil => simp
  | cons a l ih =>
    simp only [List.map_cons, List.sum_cons, List.length_cons]
    have h1 := h a (List.mem_cons_self a l)
    have h2 := ih (fun x hx => h x (List.mem_cons_of_mem a hx))
    have h3 := abs_add (f a) ((l.map f).sum)
    have h4 : ((l.length + 1 : ℕ) : ℚ) * c = (l.length : ℚ) * c + c := by push_cast; ring
    rw [h4]
    linarith

theorem list_sum_cents {α : Type} (l : List α) (f : α → ℚ)
    (h : ∀ a ∈ l, IsCents (f a)) : IsCents ((l.map f).sum) := by
  induction l with
  | nil => simpa using IsCents.zero
  | cons a l ih =>
    simp only [List.map_cons, List.sum_cons]
    exact (h a (List.mem_cons_self a l)).add
      (ih (fun x hx => h x (List.mem_cons_of_mem a hx)))


/-! ### General facts about the settlement loop -/

theorem settleLoop_nil_left (fuel : ℕ) (ds : List Balance) :
    settleLoop fuel [] ds = [] := by
  cases fuel <;> rfl

theorem settleLoop_nil_right (fuel : ℕ) (cs : List Balance) :
    settleLoop fuel cs [] = [] := by
  cases fuel <;> cases cs <;> rfl


/-- Membership in an advance-or-stay cursor list. -/
theorem mem_of_ite_drop {P : Prop} [Decidable P] {a b : Balance} {l : List Balance}
    (hb : b ∈ (if P then l else a :: l)) : b ∈ a :: l := by
  split at hb
  · exact List.mem_cons_of_mem _ hb
  · exact hb

/-- In the transfer branch both sides are beyond tolerance; the updated
amounts keep their signs and at least one updated amount is under tolerance
(the side that attained the `min` is driven exactly to zero), so at least one
cursor advances. -/
theorem emit_progress (c d : Balance) (hc : 0 ≤ c.amount) (hd : d.amount ≤ 0)
    (hno : ¬(|c.amount| < 1 / 100 ∨ |d.amount| < 1 / 100)) :
    1 / 100 ≤ min c.amount |d.amount| ∧
    min c.amount |d.amount| ≤ c.amount ∧
    0 ≤ roundToTwoDecimals (c.amount - min c.amount |d.amount|) ∧
    roundToTwoDecimals (d.amount + min c.amount |d.amount|) ≤ 0 ∧
    (|roundToTwoDecimals (c.amount - min c.amount |d.amount|)| < 1 / 100 ∨
      |roundToTwoDecimals (d.amount + min c.amount |d.amount|)| < 1 / 100) := by
  push_neg at hno
  obtain ⟨hc1, hd1⟩ := hno
  rw [abs_of_nonneg hc] at hc1
  rw [abs_of_nonpos hd] at hd1
  have habs : |d.amount| = -d.amount := abs_of_nonpos hd
  have ht1 : 1 / 100 ≤ min c.amount |d.amount| := by
    rw [habs]
    exact le_min hc1 hd1
  have ht2 : min c.amount |d.amount| ≤ c.amount := min_le_left _ _
  have ht3 : min c.amount |d.amount| ≤ -d.amount := habs ▸ min_le_right _ _
  refine ⟨ht1, ht2, ?_, ?_, ?_⟩
  · have := roundToTwoDecimals_monotone (by linarith : (0 : ℚ) ≤ c.amount - min c.amount |d.amount|)
    rwa [roundToTwoDecimals_zero] at this
  · have := roundToTwoDecimals_monotone (by linarith : d.amount + min c.amount |d.amount| ≤ 0)
    rwa [roundToTwoDecimals_zero] at this
  · rcases min_cases c.amount |d.amount| with ⟨hmin, _⟩ | ⟨hmin, _⟩
    · left
      rw [hmin]
      simp [roundToTwoDecimals_zero]
    · right
      rw [hmin, habs]
      simp [roundToTwoDecimals_zero]

/-- The loop is insensitive to the exact fuel amount as long as the fuel is at
least `cs.length + ds.length` and the creditor amounts are nonnegative and the
debtor amounts nonpositive (which `calculateSettlements` establishes and every
iteration preserves): every iteration then drops at least one element, so the
loop always reaches a terminating state before running out.  This is the
formal counterpart of termination of the source's `while` loop. -/
theorem settleLoop_fuel_eq : ∀ (f1 f2 : ℕ) (cs ds : List Balance),
    (∀ b ∈ cs, 0 ≤ b.amount) → (∀ b ∈ ds, b.amount ≤ 0) →
    cs.length + ds.length ≤ f1 → cs.length + ds.length ≤ f2 →
    settleLoop f1 cs ds = settleLoop f2 cs ds := by
  intro f1
  induction f1 with
  | zero =>
    intro f2 cs ds _ _ h1 _
    have : cs = [] := by
      cases cs with
      | nil => rfl
      | cons a l => simp at h1
    subst this
    rw [settleLoop_nil_left, settleLoop_nil_left]
  | succ f1 ih =>
    intro f2 cs ds hcsign hdsign h1 h2
    cases f2 with
    | zero =>
      have : cs = [] := by
        cases cs with
        | nil => rfl
        | cons a l => simp at h2
      subst this
      rw [settleLoop_nil_left, settleLoop_nil_left]
    | succ f2 =>
      cases cs with
      | nil => rw [settleLoop_nil_left, settleLoop_nil_left]
      | cons c cs =>
        cases ds with
        | nil => rw [settleLoop_nil_right, settleLoop_nil_right]
        | cons d ds =>
          simp only [List.length_cons] at h1 h2
          have hc0 : 0 ≤ c.amount := hcsign c (List.mem_cons_self c cs)
          have hd0 : d.amount ≤ 0 := hdsign d (List.mem_cons_self d ds)
          have hcsign' : ∀ b ∈ cs, 0 ≤ b.amount :=
            fun b hb => hcsign b (List.mem_cons_of_mem c hb)
          have hdsign' : ∀ b ∈ ds, b.amount ≤ 0 :=
            fun b hb => hdsign b (List.mem_cons_of_mem d hb)
          simp only [settleLoop]
          by_cases hskip : |c.amount| < 1 / 100 ∨ |d.amount| < 1 / 100
          · rw [if_pos hskip, if_pos hskip]
            have hadv : ¬(¬|c.amount| < 1 / 100 ∧ ¬|d.amount| < 1 / 100) := by
              rcases hskip with h | h
              · intro hcon; exact hcon.1 h
              · intro hcon; exact hcon.2 h
            apply ih
            · intro b hb
              exact hcsign b (mem_of_ite_drop hb)
            · intro b hb
              exact hdsign b (mem_of_ite_drop hb)
            · by_cases hca : |c.amount| < 1 / 100 <;> by_cases hda : |d.amount| < 1 / 100 <;>
                simp only [hca, hda, if_true, if_false, List.length_cons] <;>
                first
                  | omega
                  | exact absurd ⟨hca, hda⟩ hadv
            · by_cases hca : |c.amount| < 1 / 100 <;> by_cases hda : |d.amount| < 1 / 100 <;>
                simp only [hca, hda, if_true, if_false, List.length_cons] <;>
                first
                  | omega
                  | exact absurd ⟨hca, hda⟩ hadv
          · rw [if_neg hskip, if_neg hskip]
            obtain ⟨_, _, hc2, hd2, hdrop⟩ := emit_progress c d hc0 hd0 hskip
            congr 1
            have hadv : ¬(¬|roundToTwoDecimals (c.amount - min c.amount |d.amount|)| < 1 / 100 ∧
                ¬|roundToTwoDecimals (d.amount + min c.amount |d.amount|)| < 1 / 100) := by
              rcases hdrop with h | h
              · intro hcon; exact hcon.1 h
              · intro hcon; exact hcon.2 h
            apply ih
            · intro b hb
              rcases List.mem_cons.mp (mem_of_ite_drop hb) with h | h
              · rw [h]; exact hc2
              · exact hcsign' b h
            · intro b hb
              rcases List.mem_cons.mp (mem_of_ite_drop hb) with h | h
              · rw [h]; exact hd2
              · exact hdsign' b h
            · by_cases hca : |roundToTwoDecimals (c.amount - min c.amount |d.amount|)| < 1 / 100 <;>
                by_cases hda : |roundToTwoDecimals (d.amount + min c.amount |d.amount|)| < 1 / 100 <;>
                simp only [hca, hda, if_true, if_false, List.length_cons] <;>
                first
                  | omega
                  | exact absurd ⟨hca, hda⟩ hadv
            · by_cases hca : |roundToTwoDecimals (c.amount - min c.amount |d.amount|)| < 1 / 100 <;>
                by_cases hda : |roundToTwoDecimals (d.amount + min c.amount |d.amount|)| < 1 / 100 <;>
                simp only [hca, hda, if_true, if_false, List.length_cons] <;>
                first
                  | omega
                  | exact absurd ⟨hca, hda⟩ hadv


theorem name_mem_of_ite_drop {P : Prop} [Decidable P] {n : String} {a : Balance}
    {l : List Balance} (h : n ∈ (if P then l else a :: l).map Balance.name) :
    n = a.name ∨ n ∈ l.map Balance.name := by
  split at h
  · exact Or.inr h
  · rcases List.mem_map.mp h with ⟨b, hb, rfl⟩
    rcases List.mem_cons.mp hb with h' | h'
    · exact Or.inl (by rw [h'])
    · exact Or.inr (List.mem_map.mpr ⟨b, h', rfl⟩)

/-- Every emitted settlement is for at least one cent (`0.01`), is addressed
to the name of some entry of the creditor list and drawn from the name of some
entry of the debtor list, provided creditor amounts are nonnegative and debtor
amounts nonpositive. -/
theorem settleLoop_mem : ∀ (fuel : ℕ) (cs ds : List Balance),
    (∀ b ∈ cs, 0 ≤ b.amount) → (∀ b ∈ ds, b.amount ≤ 0) →
    ∀ s ∈ settleLoop fuel cs ds,
      1 / 100 ≤ s.amount ∧ s.«to» ∈ cs.map Balance.name ∧ s.«from» ∈ ds.map Balance.name := by
  intro fuel
  induction fuel with
  | zero =>
    intro cs ds _ _ s hs
    simp [settleLoop] at hs
  | succ fuel ih =>
    intro cs ds hcsign hdsign s hs
    cases cs with
    | nil => rw [settleLoop_nil_left] at hs; cases hs
    | cons c cs =>
      cases ds with
      | nil => rw [settleLoop_nil_right] at hs; cases hs
      | cons d ds =>
        have hc0 : 0 ≤ c.amount := hcsign c (List.mem_cons_self c cs)
        have hd0 : d.amount ≤ 0 := hdsign d (List.mem_cons_self d ds)
        have hcsign' : ∀ b ∈ cs, 0 ≤ b.amount :=
          fun b hb => hcsign b (List.mem_cons_of_mem c hb)
        have hdsign' : ∀ b ∈ ds, b.amount ≤ 0 :=
          fun b hb => hdsign b (List.mem_cons_of_mem d hb)
        simp only [settleLoop] at hs
        by_cases hskip : |c.amount| < 1 / 100 ∨ |d.amount| < 1 / 100
        · rw [if_pos hskip] at hs
          obtain ⟨h1, h2, h3⟩ := ih _ _
            (fun b hb => hcsign b (mem_of_ite_drop hb))
            (fun b hb => hdsign b (mem_of_ite_drop hb)) s hs
          refine ⟨h1, ?_, ?_⟩
          · rcases name_mem_of_ite_drop h2 with h | h
            · rw [h]; exact List.mem_map.mpr ⟨c, List.mem_cons_self c cs, rfl⟩
            · rw [List.map_cons]
              exact List.mem_cons_of_mem _ h
          · rcases name_mem_of_ite_drop h3 with h | h
            · rw [h]; exact List.mem_map.mpr ⟨d, List.mem_cons_self d ds, rfl⟩
            · rw [List.map_cons]
              exact List.mem_cons_of_mem _ h
        · rw [if_neg hskip] at hs
          obtain ⟨ht1, ht2, hc2, hd2, _⟩ := emit_progress c d hc0 hd0 hskip
          rcases List.mem_cons.mp hs with hhead | hrest
          · subst hhead
            refine ⟨?_, ?_, ?_⟩
            · have : roundToTwoDecimals (1 / 100) ≤
                  roundToTwoDecimals (min c.amount |d.amount|) :=
                roundToTwoDecimals_monotone ht1
              rwa [roundToTwoDecimals_cents ⟨1, by norm_num⟩] at this
            · exact List.mem_map.mpr ⟨c, List.mem_cons_self c cs, rfl⟩
            · exact List.mem_map.mpr ⟨d, List.mem_cons_self d ds, rfl⟩
          · obtain ⟨h1, h2, h3⟩ := ih _ _
              (fun b hb => by
                rcases List.mem_cons.mp (mem_of_ite_drop hb) with h | h
                · rw [h]; exact hc2
                · exact hcsign' b h)
              (fun b hb => by
                rcases List.mem_cons.mp (mem_of_ite_drop hb) with h | h
                · rw [h]; exact hd2
                · exact hdsign' b h) s hrest
            refine ⟨h1, ?_, ?_⟩
            · rcases name_mem_of_ite_drop h2 with h | h
              · rw [h]; exact List.mem_map.mpr ⟨c, List.mem_cons_self c cs, rfl⟩
              · rw [List.map_cons]
                exact List.mem_cons_of_mem _ h
            · rcases name_mem_of_ite_drop h3 with h | h
              · rw [h]; exact List.mem_map.mpr ⟨d, List.mem_cons_self d ds, rfl⟩
              · rw [List.map_cons]
                exact List.mem_cons_of_mem _ h


/-- Count bound for the loop: either nothing is emitted, or the number of
emitted settlements is strictly below `cs.length + ds.length`, because every
iteration that emits also drops at least one entry and the loop stops when a
list is exhausted. -/
theorem settleLoop_length : ∀ (fuel : ℕ) (cs ds : List Balance),
    (∀ b ∈ cs, 0 ≤ b.amount) → (∀ b ∈ ds, b.amount ≤ 0) →
    (settleLoop fuel cs ds).length + 1 ≤ cs.length + ds.length ∨
      settleLoop fuel cs ds = [] := by
  intro fuel
  induction fuel with
  | zero => intro cs ds _ _; exact Or.inr rfl
  | succ fuel ih =>
    intro cs ds hcsign hdsign
    cases cs with
    | nil => exact Or.inr (settleLoop_nil_left _ _)
    | cons c cs =>
      cases ds with
      | nil => exact Or.inr (settleLoop_nil_right _ _)
      | cons d ds =>
        have hc0 : 0 ≤ c.amount := hcsign c (List.mem_cons_self c cs)
        have hd0 : d.amount ≤ 0 := hdsign d (List.mem_cons_self d ds)
        have hcsign' : ∀ b ∈ cs, 0 ≤ b.amount :=
          fun b hb => hcsign b (List.mem_cons_of_mem c hb)
        have hdsign' : ∀ b ∈ ds, b.amount ≤ 0 :=
          fun b hb => hdsign b (List.mem_cons_of_mem d hb)
        simp only [settleLoop]
        by_cases hskip : |c.amount| < 1 / 100 ∨ |d.amount| < 1 / 100
        · rw [if_pos hskip]
          left
          rcases ih (if |c.amount| < 1 / 100 then cs else c :: cs)
              (if |d.amount| < 1 / 100 then ds else d :: ds)
              (fun b hb => hcsign b (mem_of_ite_drop hb))
              (fun b hb => hdsign b (mem_of_ite_drop hb)) with h | h
          · have hlc : (if |c.amount| < 1 / 100 then cs else c :: cs).length ≤ cs.length + 1 := by
              split <;> simp
            have hld : (if |d.amount| < 1 / 100 then ds else d :: ds).length ≤ ds.length + 1 := by
              split <;> simp
            simp only [List.length_cons]
            omega
          · rw [h]
            simp only [List.length_nil, List.length_cons]
            omega
        · rw [if_neg hskip]
          obtain ⟨_, _, hc2, hd2, hdrop⟩ := emit_progress c d hc0 hd0 hskip
          left
          have hsigns1 : ∀ b ∈ (if |roundToTwoDecimals (c.amount - min c.amount |d.amount|)| < 1 / 100
              then cs else ⟨c.name, roundToTwoDecimals (c.amount - min c.amount |d.amount|)⟩ :: cs),
              0 ≤ b.amount := by
            intro b hb
            rcases List.mem_cons.mp (mem_of_ite_drop hb) with h | h
            · rw [h]; exact hc2
            · exact hcsign' b h
          have hsigns2 : ∀ b ∈ (if |roundToTwoDecimals (d.amount + min c.amount |d.amount|)| < 1 / 100
              then ds else ⟨d.name, roundToTwoDecimals (d.amount + min c.amount |d.amount|)⟩ :: ds),
              b.amount ≤ 0 := by
            intro b hb
            rcases List.mem_cons.mp (mem_of_ite_drop hb) with h | h
            · rw [h]; exact hd2
            · exact hdsign' b h
          have hlens : (if |roundToTwoDecimals (c.amount - min c.amount |d.amount|)| < 1 / 100
                then cs else ⟨c.name, roundToTwoDecimals (c.amount - min c.amount |d.amount|)⟩ :: cs).length +
              (if |roundToTwoDecimals (d.amount + min c.amount |d.amount|)| < 1 / 100
                then ds else ⟨d.name, roundToTwoDecimals (d.amount + min c.amount |d.amount|)⟩ :: ds).length ≤
              cs.length + ds.length + 1 := by
            by_cases hca : |roundToTwoDecimals (c.amount - min c.amount |d.amount|)| < 1 / 100 <;>
              by_cases hda : |roundToTwoDecimals (d.amount + min c.amount |d.amount|)| < 1 / 100 <;>
              simp only [hca, hda, if_true, if_false, List.length_cons] <;>
              first
                | omega
                | (exfalso
                   rcases hdrop with h | h
                   · exact hca h
                   · exact hda h)
          rcases ih _ _ hsigns1 hsigns2 with h | h
          · simp only [List.length_cons]
            omega
          · rw [h]
            simp only [List.length_nil, List.length_cons]
            omega


theorem paidTo_nil (n : String) : paidTo n [] = 0 := rfl

theorem paidBy_nil (n : String) : paidBy n [] = 0 := rfl

theorem paidTo_cons (n : String) (s : Settlement) (ss : List Settlement) :
    paidTo n (s :: ss) = (if s.«to» = n then s.amount else 0) + paidTo n ss := by
  simp [paidTo]

theorem paidBy_cons (n : String) (s : Settlement) (ss : List Settlement) :
    paidBy n (s :: ss) = (if s.«from» = n then s.amount else 0) + paidBy n ss := by
  simp [paidBy]

theorem paidTo_eq_zero {n : String} {ss : List Settlement}
    (h : ∀ s ∈ ss, s.«to» ≠ n) : paidTo n ss = 0 := by
  induction ss with
  | nil => rfl
  | cons s ss ih =>
    rw [paidTo_cons, if_neg (h s (List.mem_cons_self s ss)),
      ih (fun x hx => h x (List.mem_cons_of_mem s hx))]
    norm_num

theorem paidBy_eq_zero {n : String} {ss : List Settlement}
    (h : ∀ s ∈ ss, s.«from» ≠ n) : paidBy n ss = 0 := by
  induction ss with
  | nil => rfl
  | cons s ss ih =>
    rw [paidBy_cons, if_neg (h s (List.mem_cons_self s ss)),
      ih (fun x hx => h x (List.mem_cons_of_mem s hx))]
    norm_num

theorem names_ite_sublist {P : Prop} [Decidable P] {a a' : Balance} {l : List Balance}
    (h : a'.name = a.name) :
    List.Sublist ((if P then l else a' :: l).map Balance.name) ((a :: l).map Balance.name) := by
  split
  · exact (List.sublist_cons_self a l).map Balance.name
  · rw [List.map_cons, List.map_cons, h]


/-- Exact discharge: when every creditor amount is at least one cent, every
debtor amount at most minus one cent, all amounts are whole cents, all names
are distinct and the two sides sum to zero, the loop pays each creditor
exactly its amount and collects from each debtor exactly its amount.  The
cents hypothesis makes every `roundToTwoDecimals` the identity, and the side
attaining the `min` is driven exactly to zero each iteration. -/
theorem settleLoop_discharge : ∀ (fuel : ℕ) (cs ds : List Balance),
    cs.length + ds.length ≤ fuel →
    (∀ b ∈ cs, IsCents b.amount) → (∀ b ∈ ds, IsCents b.amount) →
    (∀ b ∈ cs, 1 / 100 ≤ b.amount) → (∀ b ∈ ds, b.amount ≤ -(1 / 100)) →
    ((cs ++ ds).map Balance.name).Nodup →
    (cs.map Balance.amount).sum + (ds.map Balance.amount).sum = 0 →
    (∀ b ∈ cs, paidTo b.name (settleLoop fuel cs ds) = b.amount) ∧
    (∀ b ∈ ds, paidBy b.name (settleLoop fuel cs ds) = -b.amount) := by
  intro fuel
  induction fuel with
  | zero =>
    intro cs ds hfuel _ _ _ _ _ _
    have hcs : cs = [] := by cases cs with
      | nil => rfl
      | cons a l => simp at hfuel
    have hds : ds = [] := by cases ds with
      | nil => rfl
      | cons a l => rw [hcs] at hfuel; simp at hfuel
    subst hcs; subst hds
    exact ⟨fun b hb => absurd hb (List.not_mem_nil b), fun b hb => absurd hb (List.not_mem_nil b)⟩
  | succ fuel ih =>
    intro cs ds hfuel hcC hcD hCb hDb hnd hsum
    cases cs with
    | nil =>
      rw [settleLoop_nil_left]
      refine ⟨fun b hb => absurd hb (List.not_mem_nil b), fun b hb => ?_⟩
      exfalso
      have hnonempty : ((ds.map Balance.amount).sum : ℚ) ≤ -(1 / 100) + 0 := by
        cases ds with
        | nil => cases hb
        | cons d ds' =>
          simp only [List.map_cons, List.sum_cons]
          have h1 := hDb d (List.mem_cons_self d ds')
          have h2 := list_sum_nonpos ds' Balance.amount
            (fun x hx => le_trans (hDb x (List.mem_cons_of_mem d hx)) (by norm_num))
          linarith
      simp only [List.map_nil, List.sum_nil] at hsum
      linarith
    | cons c cs =>
      cases ds with
      | nil =>
        rw [settleLoop_nil_right]
        refine ⟨fun b hb => ?_, fun b hb => absurd hb (List.not_mem_nil b)⟩
        exfalso
        have hnonempty : (1 / 100 : ℚ) + 0 ≤ ((c :: cs).map Balance.amount).sum := by
          simp only [List.map_cons, List.sum_cons]
          have h1 := hCb c (List.mem_cons_self c cs)
          have h2 := list_sum_nonneg cs Balance.amount
            (fun x hx => le_trans (by norm_num) (hCb x (List.mem_cons_of_mem c hx)))
          linarith
        simp only [List.map_nil, List.sum_nil] at hsum
        linarith
      | cons d ds =>
        -- head facts
        have hc1 : 1 / 100 ≤ c.amount := hCb c (List.mem_cons_self c cs)
        have hd1 : d.amount ≤ -(1 / 100) := hDb d (List.mem_cons_self d ds)
        have hccents : IsCents c.amount := hcC c (List.mem_cons_self c cs)
        have hdcents : IsCents d.amount := hcD d (List.mem_cons_self d ds)
        have habsc : |c.amount| = c.amount := abs_of_nonneg (by linarith)
        have habsd : |d.amount| = -d.amount := abs_of_nonpos (by linarith)
        have hskip : ¬(|c.amount| < 1 / 100 ∨ |d.amount| < 1 / 100) := by
          push_neg
          constructor
          · rw [habsc]; linarith
          · rw [habsd]; linarith
        -- name facts
        have hnd' : (c.name :: (cs.map Balance.name ++ d.name :: ds.map Balance.name)).Nodup := by
          simpa using hnd
        obtain ⟨hcnot, hnd2⟩ := List.nodup_cons.mp hnd'
        have hcname_cs : c.name ∉ cs.map Balance.name :=
          fun h => hcnot (List.mem_append_left _ h)
        have hcname_dds : c.name ∉ d.name :: ds.map Balance.name :=
          fun h => hcnot (List.mem_append_right _ h)
        obtain ⟨hnd_cs, hnd_dds, hdisj⟩ := List.nodup_append.mp hnd2
        obtain ⟨hdnot, hnd_ds⟩ := List.nodup_cons.mp hnd_dds
        have hdname_cs : d.name ∉ cs.map Balance.name :=
          fun h => hdisj h (List.mem_cons_self _ _)
        -- the transfer
        have habsd_cents : IsCents |d.amount| := hdcents.abs
        have htcents : IsCents (min c.amount |d.amount|) := hccents.min habsd_cents
        have ht_le_c : min c.amount |d.amount| ≤ c.amount := min_le_left _ _
        have ht_le_negd : min c.amount |d.amount| ≤ -d.amount := by
          rw [← habsd]; exact min_le_right _ _
        have ht_pos : 1 / 100 ≤ min c.amount |d.amount| := by
          apply le_min
          · exact hc1
          · rw [habsd]; linarith
        have hrt : roundToTwoDecimals (min c.amount |d.amount|) = min c.amount |d.amount| :=
          roundToTwoDecimals_cents htcents
        have hrc : roundToTwoDecimals (c.amount - min c.amount |d.amount|) =
            c.amount - min c.amount |d.amount| :=
          roundToTwoDecimals_cents (hccents.sub htcents)
        have hrd : roundToTwoDecimals (d.amount + min c.amount |d.amount|) =
            d.amount + min c.amount |d.amount| :=
          roundToTwoDecimals_cents (hdcents.add htcents)
        have hcnn : 0 ≤ c.amount - min c.amount |d.amount| := by linarith
        have hdnp : d.amount + min c.amount |d.amount| ≤ 0 := by linarith
        -- tail hypotheses
        have hcC' : ∀ b ∈ cs, IsCents b.amount := fun b hb => hcC b (List.mem_cons_of_mem c hb)
        have hcD' : ∀ b ∈ ds, IsCents b.amount := fun b hb => hcD b (List.mem_cons_of_mem d hb)
        have hCb' : ∀ b ∈ cs, 1 / 100 ≤ b.amount := fun b hb => hCb b (List.mem_cons_of_mem c hb)
        have hDb' : ∀ b ∈ ds, b.amount ≤ -(1 / 100) := fun b hb => hDb b (List.mem_cons_of_mem d hb)
        have hsum' : c.amount + (cs.map Balance.amount).sum +
            (d.amount + (ds.map Balance.amount).sum) = 0 := by
          simpa using hsum
        simp only [settleLoop, if_neg hskip, hrt, hrc, hrd]
        simp only [List.length_cons] at hfuel
        by_cases hcdrop : |c.amount - min c.amount (abs d.amount)| < 1 / 100
        · -- creditor exactly settled
          have hczero : c.amount - min c.amount |d.amount| = 0 :=
            cents_small_nonneg_eq_zero (hccents.sub htcents) hcnn hcdrop
          have htc : min c.amount |d.amount| = c.amount := by linarith
          rw [if_pos hcdrop]
          by_cases hddrop : |d.amount + min c.amount (abs d.amount)| < 1 / 100
          · -- case A: both sides exactly settled
            have hdzero : d.amount + min c.amount |d.amount| = 0 :=
              cents_small_nonpos_eq_zero (hdcents.add htcents) hdnp hddrop
            have htd : min c.amount |d.amount| = -d.amount := by linarith
            rw [if_pos hddrop]
            have hndA : ((cs ++ ds).map Balance.name).Nodup := by
              rw [List.map_append]
              rw [List.nodup_append]
              exact ⟨hnd_cs, hnd_ds, fun a ha hb =>
                hdisj ha (List.mem_cons_of_mem _ hb)⟩
            obtain ⟨ih2, ih3⟩ := ih cs ds (by omega) hcC' hcD' hCb' hDb' hndA (by linarith)
            have hmem := settleLoop_mem fuel cs ds
              (fun b hb => le_trans (by norm_num) (hCb' b hb))
              (fun b hb => le_trans (hDb' b hb) (by norm_num))
            constructor
            · intro b hb
              rcases List.mem_cons.mp hb with rfl | hb'
              · rw [paidTo_cons, if_pos rfl]
                rw [paidTo_eq_zero (fun s hs => fun he =>
                  hcname_cs (by rw [← he]; exact (hmem s hs).2.1))]
                linarith
              · rw [paidTo_cons, if_neg (fun he =>
                  hcname_cs (by rw [show c.name = b.name from he]; exact List.mem_map.mpr ⟨b, hb', rfl⟩))]
                rw [ih2 b hb']
                norm_num
            · intro b hb
              rcases List.mem_cons.mp hb with rfl | hb'
              · rw [paidBy_cons, if_pos rfl]
                rw [paidBy_eq_zero (fun s hs => fun he =>
                  hdnot (by rw [← he]; exact (hmem s hs).2.2))]
                linarith
              · rw [paidBy_cons, if_neg (fun he =>
                  hdnot (by rw [show d.name = b.name from he]; exact List.mem_map.mpr ⟨b, hb', rfl⟩))]
                rw [ih3 b hb']
                norm_num
          · -- case B: creditor settled, debtor keeps a remainder
            have hdkeep : d.amount + min c.amount |d.amount| ≤ -(1 / 100) := by
              have habs2 : |d.amount + min c.amount (abs d.amount)| =
                  -(d.amount + min c.amount (abs d.amount)) := abs_of_nonpos hdnp
              have h3 : 1 / 100 ≤ -(d.amount + min c.amount (abs d.amount)) := by
                rw [← habs2]
                exact le_of_not_lt hddrop
              linarith
            rw [if_neg hddrop]
            have hndB : ((cs ++ ⟨d.name, d.amount + min c.amount |d.amount|⟩ :: ds).map
                Balance.name).Nodup := by
              simp only [List.map_append, List.map_cons]
              rw [List.nodup_append]
              exact ⟨hnd_cs, List.nodup_cons.mpr ⟨hdnot, hnd_ds⟩, hdisj⟩
            obtain ⟨ih2, ih3⟩ := ih cs (⟨d.name, d.amount + min c.amount |d.amount|⟩ :: ds)
              (by simp only [List.length_cons]; omega) hcC'
              (fun b hb => by
                rcases List.mem_cons.mp hb with rfl | hb'
                · exact hdcents.add htcents
                · exact hcD' b hb')
              hCb'
              (fun b hb => by
                rcases List.mem_cons.mp hb with rfl | hb'
                · exact hdkeep
                · exact hDb' b hb')
              hndB
              (by
                simp only [List.map_cons, List.sum_cons]
                linarith)
            have hmem := settleLoop_mem fuel cs (⟨d.name, d.amount + min c.amount |d.amount|⟩ :: ds)
              (fun b hb => le_trans (by norm_num) (hCb' b hb))
              (fun b hb => by
                rcases List.mem_cons.mp hb with rfl | hb'
                · exact le_trans hdkeep (by norm_num)
                · exact le_trans (hDb' b hb') (by norm_num))
            constructor
            · intro b hb
              rcases List.mem_cons.mp hb with rfl | hb'
              · rw [paidTo_cons, if_pos rfl]
                rw [paidTo_eq_zero (fun s hs => fun he =>
                  hcname_cs (by rw [← he]; exact (hmem s hs).2.1))]
                linarith
              · rw [paidTo_cons, if_neg (fun he =>
                  hcname_cs (by rw [show c.name = b.name from he]; exact List.mem_map.mpr ⟨b, hb', rfl⟩))]
                rw [ih2 b hb']
                norm_num
            · intro b hb
              rcases List.mem_cons.mp hb with rfl | hb'
              · rw [paidBy_cons, if_pos rfl]
                have h2 : paidBy b.name (settleLoop fuel cs
                    (⟨b.name, b.amount + min c.amount (abs b.amount)⟩ :: ds)) =
                    -(b.amount + min c.amount (abs b.amount)) :=
                  ih3 ⟨b.name, b.amount + min c.amount (abs b.amount)⟩ (List.mem_cons_self _ _)
                rw [h2]
                ring
              · rw [paidBy_cons, if_neg (fun he =>
                  hdnot (by rw [show d.name = b.name from he]; exact List.mem_map.mpr ⟨b, hb', rfl⟩))]
                rw [ih3 b (List.mem_cons_of_mem _ hb')]
                norm_num
        · -- case C: creditor keeps a remainder, so the debtor must settle
          have hckeep : 1 / 100 ≤ c.amount - min c.amount |d.amount| := by
            push_neg at hcdrop
            rw [abs_of_nonneg hcnn] at hcdrop
            exact hcdrop
          have htd : min c.amount |d.amount| = -d.amount := by
            rcases min_cases c.amount |d.amount| with ⟨hmin, _⟩ | ⟨hmin, _⟩
            · exfalso
              rw [hmin] at hckeep
              linarith
            · rw [hmin, habsd]
          have hdzero : d.amount + min c.amount |d.amount| = 0 := by linarith
          have hddrop : |d.amount + min c.amount (abs d.amount)| < 1 / 100 := by
            rw [hdzero]
            norm_num
          rw [if_neg hcdrop, if_pos hddrop]
          have hndC : ((⟨c.name, c.amount - min c.amount |d.amount|⟩ :: cs ++ ds).map
              Balance.name).Nodup := by
            simp only [List.cons_append, List.map_cons, List.map_append]
            rw [List.nodup_cons]
            constructor
            · intro h
              rcases List.mem_append.mp h with h' | h'
              · exact hcname_cs h'
              · exact hcname_dds (List.mem_cons_of_mem _ h')
            · rw [List.nodup_append]
              exact ⟨hnd_cs, hnd_ds, fun a ha hb => hdisj ha (List.mem_cons_of_mem _ hb)⟩
          obtain ⟨ih2, ih3⟩ := ih (⟨c.name, c.amount - min c.amount |d.amount|⟩ :: cs) ds
            (by simp only [List.length_cons]; omega)
            (fun b hb => by
              rcases List.mem_cons.mp hb with rfl | hb'
              · exact hccents.sub htcents
              · exact hcC' b hb')
            hcD'
            (fun b hb => by
              rcases List.mem_cons.mp hb with rfl | hb'
              · exact hckeep
              · exact hCb' b hb')
            hDb' hndC
            (by
              simp only [List.map_cons, List.sum_cons]
              linarith)
          have hmem := settleLoop_mem fuel (⟨c.name, c.amount - min c.amount |d.amount|⟩ :: cs) ds
            (fun b hb => by
              rcases List.mem_cons.mp hb with rfl | hb'
              · exact le_trans (by norm_num) hckeep
              · exact le_trans (by norm_num) (hCb' b hb'))
            (fun b hb => le_trans (hDb' b hb) (by norm_num))
          constructor
          · intro b hb
            rcases List.mem_cons.mp hb with rfl | hb'
            · rw [paidTo_cons, if_pos rfl]
              have h2 : paidTo b.name (settleLoop fuel
                  (⟨b.name, b.amount - min b.amount (abs d.amount)⟩ :: cs) ds) =
                  b.amount - min b.amount (abs d.amount) :=
                ih2 ⟨b.name, b.amount - min b.amount (abs d.amount)⟩ (List.mem_cons_self _ _)
              rw [h2]
              ring
            · rw [paidTo_cons, if_neg (fun he =>
                hcname_cs (by rw [show c.name = b.name from he]; exact List.mem_map.mpr ⟨b, hb', rfl⟩))]
              rw [ih2 b (List.mem_cons_of_mem _ hb')]
              norm_num
          · intro b hb
            rcases List.mem_cons.mp hb with rfl | hb'
            · rw [paidBy_cons, if_pos rfl]
              rw [paidBy_eq_zero (fun s hs => fun he =>
                hdnot (by rw [← he]; exact (hmem s hs).2.2))]
              linarith
            · rw [paidBy_cons, if_neg (fun he =>
                hdnot (by rw [show d.name = b.name from he]; exact List.mem_map.mpr ⟨b, hb', rfl⟩))]
              rw [ih3 b hb']
              norm_num


/-! ### Characterization of `calculateParticipantStats` -/

theorem dedup_foldl_mem : ∀ (l : List String) (acc : List String) (n : String),
    n ∈ l.foldl (fun acc n => if n ∈ acc then acc else acc ++ [n]) acc ↔ n ∈ acc ∨ n ∈ l := by
  intro l
  induction l with
  | nil => intro acc n; simp
  | cons m l ih =>
    intro acc n
    simp only [List.foldl_cons]
    rw [ih]
    by_cases hm : m ∈ acc
    · rw [if_pos hm]
      constructor
      · rintro (h | h)
        · exact Or.inl h
        · exact Or.inr (List.mem_cons_of_mem m h)
      · rintro (h | h)
        · exact Or.inl h
        · rcases List.mem_cons.mp h with rfl | h'
          · exact Or.inl hm
          · exact Or.inr h'
    · rw [if_neg hm]
      simp only [List.mem_append, List.mem_singleton, List.mem_cons]
      tauto

theorem dedup_foldl_nodup : ∀ (l : List String) (acc : List String),
    acc.Nodup → (l.foldl (fun acc n => if n ∈ acc then acc else acc ++ [n]) acc).Nodup := by
  intro l
  induction l with
  | nil => intro acc h; simpa using h
  | cons m l ih =>
    intro acc h
    simp only [List.foldl_cons]
    by_cases hm : m ∈ acc
    · rw [if_pos hm]; exact ih acc h
    · rw [if_neg hm]
      apply ih
      rw [List.nodup_append]
      exact ⟨h, List.nodup_singleton m, fun a ha hb => hm (by
        rw [List.mem_singleton] at hb
        rwa [hb] at ha)⟩

theorem dedup_foldl_length : ∀ (l : List String) (acc : List String),
    (l.foldl (fun acc n => if n ∈ acc then acc else acc ++ [n]) acc).length ≤
      acc.length + l.length := by
  intro l
  induction l with
  | nil => intro acc; simp
  | cons m l ih =>
    intro acc
    simp only [List.foldl_cons, List.length_cons]
    by_cases hm : m ∈ acc
    · rw [if_pos hm]
      have := ih acc
      omega
    · rw [if_neg hm]
      have := ih (acc ++ [m])
      simp only [List.length_append, List.length_singleton] at this
      omega

theorem mem_dedupFirst (l : List String) (n : String) : n ∈ dedupFirst l ↔ n ∈ l := by
  unfold dedupFirst
  rw [dedup_foldl_mem]
  simp

theorem nodup_dedupFirst (l : List String) : (dedupFirst l).Nodup :=
  dedup_foldl_nodup l [] List.nodup_nil

theorem length_dedupFirst_le (l : List String) : (dedupFirst l).length ≤ l.length := by
  have := dedup_foldl_length l []
  simpa using this

/-- `mapUpdate` on a map whose entries are a function of the key. -/
theorem mapUpdate_map (keys : List String) (v : String → Stats) (k : String) (f : Stats → Stats) :
    mapUpdate (keys.map (fun n => (n, v n))) k f =
      keys.map (fun n => (n, if n = k then f (v n) else v n)) := by
  unfold mapUpdate
  rw [List.map_map]
  apply List.map_congr_left
  intro n _
  by_cases h : n = k
  · simp [h]
  · simp [h]

/-- `mapSet` with the value already present everywhere is the dedup step on
keys. -/
theorem mapSet_map (keys : List String) (k : String) (v : Stats) :
    mapSet (keys.map (fun n => (n, v))) k v =
      (if k ∈ keys then keys else keys ++ [k]).map (fun n => (n, v)) := by
  unfold mapSet
  have hfst : (keys.map (fun n => (n, v))).map Prod.fst = keys := by
    induction keys with
    | nil => rfl
    | cons a l ih2 =>
      simp only [List.map_cons]
      rw [ih2]
  rw [hfst]
  by_cases h : k ∈ keys
  · rw [if_pos h, if_pos h, List.map_map]
    apply List.map_congr_left
    intro n _
    by_cases h' : n = k
    · simp [h']
    · simp [h']
  · rw [if_neg h, if_neg h]
    simp

/-- The initialization loop builds the constant-`⟨0,0⟩` map over the
first-occurrence-deduplicated participant names. -/
theorem init_stats_eq : ∀ (ps : List Participant) (keys : List String),
    ps.foldl (fun m p => mapSet m p.name ⟨0, 0⟩) (keys.map (fun n => (n, (⟨0, 0⟩ : Stats)))) =
      ((ps.map Participant.name).foldl
        (fun acc n => if n ∈ acc then acc else acc ++ [n]) keys).map
          (fun n => (n, (⟨0, 0⟩ : Stats))) := by
  intro ps
  induction ps with
  | nil => intro keys; simp
  | cons p ps ih =>
    intro keys
    simp only [List.foldl_cons, List.map_cons]
    rw [mapSet_map keys p.name ⟨0, 0⟩]
    by_cases h : p.name ∈ keys
    · rw [if_pos h] at *
      rw [ih keys]
    · rw [if_neg h] at *
      rw [ih (keys ++ [p.name])]


theorem paidSum_nil (n : String) : paidSum n [] = 0 := rfl

theorem owedSum_nil (n : String) : owedSum n [] = 0 := rfl

theorem paidSum_cons (n : String) (e : Expense) (es : List Expense) :
    paidSum n (e :: es) = (if e.payer = n then e.amount else 0) + paidSum n es := by
  simp [paidSum]

theorem owedSum_cons (n : String) (e : Expense) (es : List Expense) :
    owedSum n (e :: es) =
      (e.involved.count n : ℚ) * (e.amount / (e.involved.length : ℚ)) + owedSum n es := by
  simp [owedSum]

/-- The loop over `involved` adds one `share` per occurrence of each key. -/
theorem owed_fold : ∀ (inv : List String) (keys : List String) (v : String → Stats) (share : ℚ),
    inv.foldl (fun m2 n => mapUpdate m2 n (fun s => ⟨s.totalPaid, s.totalOwed + share⟩))
      (keys.map (fun n => (n, v n))) =
      keys.map (fun n =>
        (n, ⟨(v n).totalPaid, (v n).totalOwed + (inv.count n : ℚ) * share⟩)) := by
  intro inv
  induction inv with
  | nil =>
    intro keys v share
    simp
  | cons i inv ih =>
    intro inv_keys v share
    simp only [List.foldl_cons]
    rw [mapUpdate_map]
    rw [ih inv_keys (fun n => if n = i then ⟨(v n).totalPaid, (v n).totalOwed + share⟩ else v n)
      share]
    apply List.map_congr_left
    intro n _
    by_cases h : n = i
    · subst h
      simp only [if_pos rfl, List.count_cons, Prod.mk.injEq, Stats.mk.injEq, true_and,
        BEq.refl, if_true]
      push_cast
      ring
    · rw [if_neg h]
      simp [List.count_cons, h]


/-- One pass of the expense loop over a keyed map: each key accumulates its
payer credits and involved debits in closed form. -/
theorem stats_fold : ∀ (es : List Expense) (keys : List String) (v : String → Stats),
    es.foldl (fun m e =>
      e.involved.foldl
        (fun m2 n => mapUpdate m2 n
          (fun s => ⟨s.totalPaid, s.totalOwed + e.amount / (e.involved.length : ℚ)⟩))
        (mapUpdate m e.payer (fun s => ⟨s.totalPaid + e.amount, s.totalOwed⟩)))
      (keys.map (fun n => (n, v n))) =
      keys.map (fun n =>
        (n, ⟨(v n).totalPaid + paidSum n es, (v n).totalOwed + owedSum n es⟩)) := by
  intro es
  induction es with
  | nil =>
    intro keys v
    simp [paidSum_nil, owedSum_nil]
  | cons e es ih =>
    intro keys v
    simp only [List.foldl_cons]
    rw [mapUpdate_map]
    rw [owed_fold e.involved keys
      (fun n => if n = e.payer then ⟨(v n).totalPaid + e.amount, (v n).totalOwed⟩ else v n)
      (e.amount / (e.involved.length : ℚ))]
    rw [ih keys (fun n =>
      ⟨(if n = e.payer then (⟨(v n).totalPaid + e.amount, (v n).totalOwed⟩ : Stats)
          else v n).totalPaid,
        (if n = e.payer then (⟨(v n).totalPaid + e.amount, (v n).totalOwed⟩ : Stats)
          else v n).totalOwed + (e.involved.count n : ℚ) * (e.amount / (e.involved.length : ℚ))⟩)]
    apply List.map_congr_left
    intro n _
    by_cases h : n = e.payer
    · subst h
      simp only [paidSum_cons, owedSum_cons, eq_self_iff_true, if_true, Prod.mk.injEq,
        Stats.mk.injEq, true_and]
      constructor
      · ring
      · ring
    · have hne : ¬ e.payer = n := fun he => h he.symm
      simp only [paidSum_cons, owedSum_cons, if_neg h, if_neg hne, Prod.mk.injEq,
        Stats.mk.injEq, true_and]
      constructor
      · ring
      · ring


/-- Closed form of `calculateParticipantStats`: the result maps each distinct
participant name (in first-occurrence order) to the sums of its payer credits
and per-occurrence involved shares.  Unknown payer or involved names match no
key and therefore contribute nothing anywhere; the computation is total. -/
theorem calculateParticipantStats_eq (ps : List Participant) (es : List Expense) :
    calculateParticipantStats ps es =
      (dedupFirst (ps.map Participant.name)).map
        (fun n => (n, (⟨paidSum n es, owedSum n es⟩ : Stats))) := by
  simp only [calculateParticipantStats]
  have hinit : ps.foldl (fun m p => mapSet m p.name ⟨0, 0⟩) [] =
      (dedupFirst (ps.map Participant.name)).map (fun n => (n, (⟨0, 0⟩ : Stats))) := by
    have h := init_stats_eq ps []
    simpa [dedupFirst] using h
  rw [hinit]
  rw [stats_fold es (dedupFirst (ps.map Participant.name)) (fun _ => ⟨0, 0⟩)]
  simp


/-! ### Stable-sort and partition lemmas -/

theorem filter_orderedInsert {α : Type} (r : α → α → Prop) [DecidableRel r]
    (p : α → Bool) (a : α) :
    ∀ l : List α, (p a = true → ∀ b, p b = true → r a b) →
    (List.orderedInsert r a l).filter p =
      if p a = true then a :: l.filter p else l.filter p := by
  intro l
  induction l with
  | nil =>
    intro _
    rw [List.orderedInsert, List.filter_cons, List.filter_nil]
  | cons b l ih =>
    intro h
    rw [List.orderedInsert]
    by_cases hr : r a b
    · rw [if_pos hr, List.filter_cons]
    · rw [if_neg hr, List.filter_cons, ih h]
      by_cases hpa : p a = true
      · have hpb : ¬ p b = true := fun hpb => hr (h hpa b hpb)
        rw [if_neg hpb, if_pos hpa, if_pos hpa, List.filter_cons, if_neg hpb]
      · rw [if_neg hpa, if_neg hpa, List.filter_cons]

/-- Stability of insertion sort: filtering by a class of mutually `r`-related
elements (for us: an equal-amount tie class) returns them in input order. -/
theorem filter_insertionSort {α : Type} (r : α → α → Prop) [DecidableRel r]
    (p : α → Bool) (h : ∀ a b, p a = true → p b = true → r a b) :
    ∀ l : List α, (l.insertionSort r).filter p = l.filter p := by
  intro l
  induction l with
  | nil => rfl
  | cons a l ih =>
    rw [List.insertionSort]
    rw [filter_orderedInsert r p _ _ (fun hpa b hpb => h a b hpa hpb)]
    rw [ih, List.filter_cons]


theorem calculateSettlements_eq (bs : List Balance) :
    calculateSettlements bs =
      settleLoop ((creditorsOf bs).length + (debtorsOf bs).length)
        (creditorsOf bs) (debtorsOf bs) := rfl

theorem mem_creditorsOf {bs : List Balance} {b : Balance} (h : b ∈ creditorsOf bs) :
    1 / 100 < b.amount ∧ b ∈ bs := by
  unfold creditorsOf at h
  have h' := (List.perm_insertionSort creditorGE _).mem_iff.mp h
  have h2 := List.mem_filter.mp h'
  exact ⟨of_decide_eq_true h2.2, h2.1⟩

theorem mem_debtorsOf {bs : List Balance} {b : Balance} (h : b ∈ debtorsOf bs) :
    b.amount < -(1 / 100) ∧ b ∈ bs := by
  unfold debtorsOf at h
  have h' := (List.perm_insertionSort debtorLE _).mem_iff.mp h
  have h2 := List.mem_filter.mp h'
  exact ⟨of_decide_eq_true h2.2, h2.1⟩

theorem mem_creditorsOf_of {bs : List Balance} {b : Balance} (hb : b ∈ bs)
    (ha : 1 / 100 < b.amount) : b ∈ creditorsOf bs := by
  unfold creditorsOf
  exact (List.perm_insertionSort creditorGE _).mem_iff.mpr
    (List.mem_filter.mpr ⟨hb, decide_eq_true ha⟩)

theorem mem_debtorsOf_of {bs : List Balance} {b : Balance} (hb : b ∈ bs)
    (ha : b.amount < -(1 / 100)) : b ∈ debtorsOf bs := by
  unfold debtorsOf
  exact (List.perm_insertionSort debtorLE _).mem_iff.mpr
    (List.mem_filter.mpr ⟨hb, decide_eq_true ha⟩)

/-- Map lookup (JS `Map.get`), first matching key. -/
def mapLookup (n : String) : StatsMap → Option Stats
  | [] => none
  | p :: m => if p.1 = n then some p.2 else mapLookup n m

theorem mapLookup_map_keys (v : String → Stats) (n : String) :
    ∀ keys : List String,
    mapLookup n (keys.map (fun k => (k, v k))) = if n ∈ keys then some (v n) else none := by
  intro keys
  induction keys with
  | nil => simp [mapLookup]
  | cons k keys ih =>
    rw [List.map_cons, mapLookup]
    by_cases h : k = n
    · subst h
      rw [if_pos rfl, if_pos (List.mem_cons_self k keys)]
    · rw [if_neg h, ih]
      by_cases hmem : n ∈ keys
      · rw [if_pos hmem, if_pos (List.mem_cons_of_mem k hmem)]
      · rw [if_neg hmem, if_neg (fun hc => by
          rcases List.mem_cons.mp hc with h' | h'
          · exact h h'.symm
          · exact hmem h')]


/-! ### Zero-sum toolkit -/

theorem list_sum_map_sub {α : Type} (l : List α) (f g : α → ℚ) :
    (l.map (fun a => f a - g a)).sum = (l.map f).sum - (l.map g).sum := by
  induction l with
  | nil => simp
  | cons a l ih => simp [ih]; ring

theorem list_sum_map_mul_right {α : Type} (l : List α) (f : α → ℚ) (c : ℚ) :
    (l.map (fun a => f a * c)).sum = (l.map f).sum * c := by
  induction l with
  | nil => simp
  | cons a l ih => simp [ih]; ring

theorem list_sum_indicator_zero (l : List String) (a : String) (x : ℚ) (ha : a ∉ l) :
    (l.map (fun n => if a = n then x else 0)).sum = 0 := by
  induction l with
  | nil => simp
  | cons b l ih =>
    simp only [List.map_cons, List.sum_cons]
    rw [if_neg (fun h => ha (by rw [h]; exact List.mem_cons_self b l)),
      ih (fun h => ha (List.mem_cons_of_mem b h))]
    norm_num

theorem list_sum_indicator (l : List String) (a : String) (x : ℚ) (hnd : l.Nodup)
    (ha : a ∈ l) : (l.map (fun n => if a = n then x else 0)).sum = x := by
  induction l with
  | nil => cases ha
  | cons b l ih =>
    obtain ⟨hb, hnd'⟩ := List.nodup_cons.mp hnd
    simp only [List.map_cons, List.sum_cons]
    rcases List.mem_cons.mp ha with rfl | ha'
    · rw [if_pos rfl, list_sum_indicator_zero l a x hb]
      norm_num
    · rw [if_neg (fun h => hb (by rw [h] at ha'; exact ha')), ih hnd' ha']
      norm_num

theorem list_sum_count (l : List String) (hnd : l.Nodup) :
    ∀ inv : List String, (∀ i ∈ inv, i ∈ l) →
    (l.map (fun n => ((inv.count n : ℕ) : ℚ))).sum = (inv.length : ℚ) := by
  intro inv
  induction inv with
  | nil =>
    intro _
    have : ∀ n ∈ l, ((List.count n ([] : List String) : ℕ) : ℚ) = 0 := by
      intro n _
      simp
    rw [List.map_congr_left (fun n hn => this n hn)]
    simp [List.sum_replicate]
  | cons i inv ih =>
    intro hmem
    have hstep : ∀ n ∈ l, ((List.count n (i :: inv) : ℕ) : ℚ) =
        ((List.count n inv : ℕ) : ℚ) + (if i = n then 1 else 0) := by
      intro n _
      by_cases h : i = n
      · subst h
        simp [List.count_cons]
      · have : ¬ (n = i) := fun h' => h h'.symm
        simp [List.count_cons, this, h]
    rw [List.map_congr_left (fun n hn => hstep n hn), list_sum_map_add,
      ih (fun j hj => hmem j (List.mem_cons_of_mem i hj)),
      list_sum_indicator l i 1 hnd (hmem i (List.mem_cons_self i inv))]
    simp only [List.length_cons]
    push_cast
    ring

theorem roundToTwoDecimals_err (x : ℚ) : |roundToTwoDecimals x - x| ≤ 1 / 200 := by
  unfold roundToTwoDecimals
  have h1 : ((⌊x * 100 + 1 / 2⌋ : ℤ) : ℚ) ≤ x * 100 + 1 / 2 := Int.floor_le _
  have h2 : x * 100 + 1 / 2 - 1 < ((⌊x * 100 + 1 / 2⌋ : ℤ) : ℚ) := Int.sub_one_lt_floor _
  rw [abs_le]
  constructor <;> [skip; skip] <;> nlinarith [h1, h2]


/-- The exact (unrounded) per-name nets over the key list sum to zero when
every payer is a key, every involved name is a key, and no involved list is
empty. -/
theorem sum_net_zero (keys : List String) (hnd : keys.Nodup) :
    ∀ es : List Expense,
    (∀ e ∈ es, e.payer ∈ keys ∧ e.involved ≠ [] ∧ ∀ i ∈ e.involved, i ∈ keys) →
    (keys.map (fun n => paidSum n es - owedSum n es)).sum = 0 := by
  intro es
  induction es with
  | nil =>
    intro _
    have hpoint : ∀ n ∈ keys, paidSum n [] - owedSum n [] = (0 : ℚ) := by
      intro n _
      rw [paidSum_nil, owedSum_nil]
      norm_num
    rw [List.map_congr_left hpoint]
    simp [List.sum_replicate]
  | cons e es ih =>
    intro h
    obtain ⟨hp, hne, hinv⟩ := h e (List.mem_cons_self e es)
    have hpoint : ∀ n ∈ keys, paidSum n (e :: es) - owedSum n (e :: es) =
        ((if e.payer = n then e.amount else 0) -
          ((e.involved.count n : ℕ) : ℚ) * (e.amount / (e.involved.length : ℚ))) +
        (paidSum n es - owedSum n es) := by
      intro n _
      rw [paidSum_cons, owedSum_cons]
      ring
    rw [List.map_congr_left hpoint, list_sum_map_add, list_sum_map_sub,
      list_sum_indicator keys e.payer e.amount hnd hp,
      list_sum_map_mul_right, list_sum_count keys hnd e.involved hinv,
      ih (fun e' he' => h e' (List.mem_cons_of_mem e he'))]
    have hlen : (e.involved.length : ℚ) ≠ 0 := by
      have h0 : e.involved.length ≠ 0 := fun h0 => hne (List.length_eq_zero.mp h0)
      exact_mod_cast h0
    field_simp


theorem list_sum_zero {α : Type} (l : List α) (f : α → ℚ)
    (h : ∀ a ∈ l, f a = 0) : (l.map f).sum = 0 := by
  induction l with
  | nil => rfl
  | cons a l ih =>
    simp only [List.map_cons, List.sum_cons]
    rw [h a (List.mem_cons_self a l), ih (fun x hx => h x (List.mem_cons_of_mem a hx))]
    norm_num

/-- Splitting the total of a balance list into creditors, debtors and the
within-tolerance remainder. -/
theorem sum_partition (bs : List Balance) :
    (bs.map Balance.amount).sum =
      ((bs.filter (fun b => decide (1 / 100 < b.amount))).map Balance.amount).sum +
      ((bs.filter (fun b => decide (b.amount < -(1 / 100)))).map Balance.amount).sum +
      ((bs.filter (fun b => decide (|b.amount| ≤ 1 / 100))).map Balance.amount).sum := by
  induction bs with
  | nil => simp
  | cons b bs ih =>
    simp only [List.filter_cons, decide_eq_true_eq]
    by_cases h1 : 1 / 100 < b.amount
    · rw [if_pos h1, if_neg (by intro h2; linarith), if_neg (by
        intro h3
        rw [abs_le] at h3
        linarith [h3.2])]
      simp only [List.map_cons, List.sum_cons]
      rw [ih]
      ring
    · by_cases h2 : b.amount < -(1 / 100)
      · rw [if_neg h1, if_pos h2, if_neg (by
          intro h3
          rw [abs_le] at h3
          linarith [h3.1])]
        simp only [List.map_cons, List.sum_cons]
        rw [ih]
        ring
      · rw [if_neg h1, if_neg h2, if_pos (by rw [abs_le]; constructor <;> linarith)]
        simp only [List.map_cons, List.sum_cons]
        rw [ih]
        ring

theorem map_fst_keys (v : String → Stats) : ∀ keys : List String,
    (keys.map (fun n => (n, v n))).map Prod.fst = keys := by
  intro keys
  induction keys with
  | nil => rfl
  | cons a l ih =>
    simp only [List.map_cons]
    rw [ih]

theorem paidSum_append (n : String) (es1 es2 : List Expense) :
    paidSum n (es1 ++ es2) = paidSum n es1 + paidSum n es2 := by
  simp [paidSum]

theorem owedSum_append (n : String) (es1 es2 : List Expense) :
    owedSum n (es1 ++ es2) = owedSum n es1 + owedSum n es2 := by
  simp [owedSum]


/-! ### Claim theorems -/

/-- C3 (counterexample): on the empty balance list there are no creditors and
no debtors, so the claimed bound `|creditors| + |debtors| - 1` is `-1`, yet
`calculateSettlements` emits `0` settlements, and `0 ≤ -1` is false. -/
theorem C3_counterexample :
    ¬ (((calculateSettlements []).length : ℤ) ≤
      ((([] : List Balance).filter (fun b => decide (1 / 100 < b.amount))).length : ℤ) +
      ((([] : List Balance).filter (fun b => decide (b.amount < -(1 / 100)))).length : ℤ) - 1) := by
  norm_num [calculateSettlements, creditorsOf, debtorsOf, settleLoop, List.insertionSort]

/-- C3 (amended): for every input balance list the settlement loop terminates
— running it with any extra fuel beyond `|creditors| + |debtors|` changes
nothing — and the number of emitted settlements is at most
`max (|creditors| + |debtors| - 1) 0`; the `max` with `0` is forced by the
empty case of the counterexample. -/
theorem C3_termination_count (bs : List Balance) :
    (∀ extra : ℕ,
      settleLoop ((creditorsOf bs).length + (debtorsOf bs).length + extra)
        (creditorsOf bs) (debtorsOf bs) = calculateSettlements bs) ∧
    ((calculateSettlements bs).length : ℤ) ≤
      max (((bs.filter (fun b => decide (1 / 100 < b.amount))).length : ℤ) +
        ((bs.filter (fun b => decide (b.amount < -(1 / 100)))).length : ℤ) - 1) 0 := by
  have hc : ∀ b ∈ creditorsOf bs, 0 ≤ b.amount := by
    intro b hb
    have := (mem_creditorsOf hb).1
    linarith
  have hd : ∀ b ∈ debtorsOf bs, b.amount ≤ 0 := by
    intro b hb
    have := (mem_debtorsOf hb).1
    linarith
  have hlenc : (creditorsOf bs).length =
      (bs.filter (fun b => decide (1 / 100 < b.amount))).length :=
    (List.perm_insertionSort creditorGE _).length_eq
  have hlend : (debtorsOf bs).length =
      (bs.filter (fun b => decide (b.amount < -(1 / 100)))).length :=
    (List.perm_insertionSort debtorLE _).length_eq
  constructor
  · intro extra
    rw [calculateSettlements_eq]
    exact settleLoop_fuel_eq _ _ _ _ hc hd (by omega) (by omega)
  · rw [calculateSettlements_eq]
    rcases settleLoop_length ((creditorsOf bs).length + (debtorsOf bs).length)
        (creditorsOf bs) (debtorsOf bs) hc hd with h | h
    · rw [← hlenc, ← hlend]
      have := le_max_left
        (((creditorsOf bs).length : ℤ) + ((debtorsOf bs).length : ℤ) - 1) (0 : ℤ)
      omega
    · rw [h]
      simp

/-- C8 (counterexample): with two entries sharing the name `"A"`, one a
creditor and one a debtor, the loop emits a settlement from `"A"` to `"A"`. -/
theorem C8_counterexample :
    ∃ s ∈ calculateSettlements [⟨"A", 5 / 100⟩, ⟨"A", -(5 / 100)⟩], s.«from» = s.«to» := by
  have h : calculateSettlements [⟨"A", 5 / 100⟩, ⟨"A", -(5 / 100)⟩] =
      [⟨"A", "A", 5 / 100⟩] := by
    norm_num [calculateSettlements, creditorsOf, debtorsOf, settleLoop, List.insertionSort,
      List.orderedInsert, creditorGE, debtorLE, roundToTwoDecimals, List.filter_cons,
      abs_of_nonneg, abs_of_nonpos, abs_neg, min_def]
  rw [h]
  exact ⟨⟨"A", "A", 5 / 100⟩, List.mem_singleton_self _, rfl⟩

/-- C8 (amended): when balance names are pairwise distinct, no emitted
settlement pays a name to itself: recipients are creditor names, senders are
debtor names, and with distinct names an entry cannot be both. -/
theorem C8_no_self_payment (bs : List Balance) (hnd : (bs.map Balance.name).Nodup) :
    ∀ s ∈ calculateSettlements bs, s.«from» ≠ s.«to» := by
  intro s hs he
  rw [calculateSettlements_eq] at hs
  have hc : ∀ b ∈ creditorsOf bs, 0 ≤ b.amount := by
    intro b hb
    have := (mem_creditorsOf hb).1
    linarith
  have hd : ∀ b ∈ debtorsOf bs, b.amount ≤ 0 := by
    intro b hb
    have := (mem_debtorsOf hb).1
    linarith
  obtain ⟨_, hto, hfrom⟩ := settleLoop_mem _ _ _ hc hd s hs
  rcases List.mem_map.mp hto with ⟨bc, hbc, hbce⟩
  rcases List.mem_map.mp hfrom with ⟨bd, hbd, hbde⟩
  obtain ⟨hc1, hcmem⟩ := mem_creditorsOf hbc
  obtain ⟨hd1, hdmem⟩ := mem_debtorsOf hbd
  have hname : bd.name = bc.name := by rw [hbde, hbce, he]
  have heq : bd = bc := List.inj_on_of_nodup_map hnd hdmem hcmem hname
  rw [heq] at hd1
  linarith

/-- C8 (witness at a concrete distinct-name list). -/
theorem C8_witness :
    (([⟨"B", 5 / 100⟩, ⟨"C", -(5 / 100)⟩] : List Balance).map Balance.name).Nodup ∧
    ∀ s ∈ calculateSettlements [⟨"B", 5 / 100⟩, ⟨"C", -(5 / 100)⟩], s.«from» ≠ s.«to» :=
  ⟨by simp, C8_no_self_payment _ (by simp)⟩

/-- C9: every emitted settlement has a strictly positive amount (indeed at
least one cent), its `from` is the name of an input balance with negative
amount and its `to` the name of an input balance with positive amount. -/
theorem C9_settlement_fields (bs : List Balance) :
    ∀ s ∈ calculateSettlements bs,
      0 < s.amount ∧ (∃ b ∈ bs, b.name = s.«from» ∧ b.amount < 0) ∧
        ∃ b ∈ bs, b.name = s.«to» ∧ 0 < b.amount := by
  intro s hs
  rw [calculateSettlements_eq] at hs
  have hc : ∀ b ∈ creditorsOf bs, 0 ≤ b.amount := by
    intro b hb
    have := (mem_creditorsOf hb).1
    linarith
  have hd : ∀ b ∈ debtorsOf bs, b.amount ≤ 0 := by
    intro b hb
    have := (mem_debtorsOf hb).1
    linarith
  obtain ⟨hamt, hto, hfrom⟩ := settleLoop_mem _ _ _ hc hd s hs
  refine ⟨by linarith, ?_, ?_⟩
  · rcases List.mem_map.mp hfrom with ⟨b, hb, hbe⟩
    obtain ⟨h1, h2⟩ := mem_debtorsOf hb
    exact ⟨b, h2, hbe, by linarith⟩
  · rcases List.mem_map.mp hto with ⟨b, hb, hbe⟩
    obtain ⟨h1, h2⟩ := mem_creditorsOf hb
    exact ⟨b, h2, hbe, by linarith⟩

/-- C9 (witness at a concrete input). -/
theorem C9_witness :
    0 < (Settlement.mk "B" "A" (5 / 100)).amount ∧
    (∃ b ∈ ([⟨"A", 5 / 100⟩, ⟨"B", -(5 / 100)⟩] : List Balance),
      b.name = (Settlement.mk "B" "A" (5 / 100)).«from» ∧ b.amount < 0) ∧
    ∃ b ∈ ([⟨"A", 5 / 100⟩, ⟨"B", -(5 / 100)⟩] : List Balance),
      b.name = (Settlement.mk "B" "A" (5 / 100)).«to» ∧ 0 < b.amount := by
  have h : calculateSettlements [⟨"A", 5 / 100⟩, ⟨"B", -(5 / 100)⟩] =
      [⟨"B", "A", 5 / 100⟩] := by
    norm_num [calculateSettlements, creditorsOf, debtorsOf, settleLoop, List.insertionSort,
      List.orderedInsert, creditorGE, debtorLE, roundToTwoDecimals, List.filter_cons,
      abs_of_nonneg, abs_of_nonpos, abs_neg, min_def]
  exact C9_settlement_fields [⟨"A", 5 / 100⟩, ⟨"B", -(5 / 100)⟩] ⟨"B", "A", 5 / 100⟩
    (by rw [h]; exact List.mem_singleton_self _)


/-- C5 (counterexample): the "excluded name never appears" part of the claim
fails when names repeat: the within-tolerance balance `("A", 0)` is excluded,
yet a settlement is addressed to `"A"` because another entry shares the name. -/
theorem C5_counterexample :
    (Balance.mk "A" 0) ∈ ([⟨"A", 0⟩, ⟨"A", 5 / 100⟩, ⟨"B", -(5 / 100)⟩] : List Balance) ∧
    |(Balance.mk "A" 0).amount| ≤ 1 / 100 ∧
    ∃ s ∈ calculateSettlements [⟨"A", 0⟩, ⟨"A", 5 / 100⟩, ⟨"B", -(5 / 100)⟩],
      s.«to» = (Balance.mk "A" 0).name := by
  have h : calculateSettlements [⟨"A", 0⟩, ⟨"A", 5 / 100⟩, ⟨"B", -(5 / 100)⟩] =
      [⟨"B", "A", 5 / 100⟩] := by
    norm_num [calculateSettlements, creditorsOf, debtorsOf, settleLoop, List.insertionSort,
      List.orderedInsert, creditorGE, debtorLE, roundToTwoDecimals, List.filter_cons,
      abs_of_nonneg, abs_of_nonpos, abs_neg, min_def]
  refine ⟨by simp, by norm_num, ?_⟩
  rw [h]
  exact ⟨⟨"B", "A", 5 / 100⟩, List.mem_singleton_self _, rfl⟩

/-- C5 (amended): for an input balance list with pairwise-distinct names, the
creditor list is the stable descending sort of the balances above `0.01`, the
debtor list the stable ascending sort of those below `-0.01` (sortedness,
permutation with the filtered input, and input order within every equal-amount
tie class), and a balance within `±0.01` of zero is excluded from both sides
and its name appears in no emitted settlement. -/
theorem C5_partition_sort (bs : List Balance) (hnd : (bs.map Balance.name).Nodup) :
    (creditorsOf bs).Sorted creditorGE ∧
    List.Perm (creditorsOf bs) (bs.filter (fun b => decide (1 / 100 < b.amount))) ∧
    (∀ q : ℚ, (creditorsOf bs).filter (fun b => decide (b.amount = q)) =
      (bs.filter (fun b => decide (1 / 100 < b.amount))).filter
        (fun b => decide (b.amount = q))) ∧
    (debtorsOf bs).Sorted debtorLE ∧
    List.Perm (debtorsOf bs) (bs.filter (fun b => decide (b.amount < -(1 / 100)))) ∧
    (∀ q : ℚ, (debtorsOf bs).filter (fun b => decide (b.amount = q)) =
      (bs.filter (fun b => decide (b.amount < -(1 / 100)))).filter
        (fun b => decide (b.amount = q))) ∧
    ∀ b ∈ bs, |b.amount| ≤ 1 / 100 →
      b ∉ creditorsOf bs ∧ b ∉ debtorsOf bs ∧
      ∀ s ∈ calculateSettlements bs, s.«from» ≠ b.name ∧ s.«to» ≠ b.name := by
  refine ⟨List.sorted_insertionSort creditorGE _, List.perm_insertionSort creditorGE _,
    ?_, List.sorted_insertionSort debtorLE _, List.perm_insertionSort debtorLE _, ?_, ?_⟩
  · intro q
    exact filter_insertionSort creditorGE (fun b => decide (b.amount = q))
      (fun a b ha hb => by
        have ha' := of_decide_eq_true ha
        have hb' := of_decide_eq_true hb
        unfold creditorGE
        rw [ha', hb']) _
  · intro q
    exact filter_insertionSort debtorLE (fun b => decide (b.amount = q))
      (fun a b ha hb => by
        have ha' := of_decide_eq_true ha
        have hb' := of_decide_eq_true hb
        unfold debtorLE
        rw [ha', hb']) _
  · intro b hb habs
    rw [abs_le] at habs
    refine ⟨?_, ?_, ?_⟩
    · intro hmem
      have := (mem_creditorsOf hmem).1
      linarith [habs.2]
    · intro hmem
      have := (mem_debtorsOf hmem).1
      linarith [habs.1]
    · intro s hs
      rw [calculateSettlements_eq] at hs
      have hc : ∀ x ∈ creditorsOf bs, 0 ≤ x.amount := by
        intro x hx
        have := (mem_creditorsOf hx).1
        linarith
      have hd : ∀ x ∈ debtorsOf bs, x.amount ≤ 0 := by
        intro x hx
        have := (mem_debtorsOf hx).1
        linarith
      obtain ⟨_, hto, hfrom⟩ := settleLoop_mem _ _ _ hc hd s hs
      constructor
      · intro he
        rcases List.mem_map.mp hfrom with ⟨bd, hbd, hbde⟩
        obtain ⟨hd1, hdmem⟩ := mem_debtorsOf hbd
        have heq : bd = b := List.inj_on_of_nodup_map hnd hdmem hb (by rw [hbde, he])
        rw [heq] at hd1
        linarith [habs.1]
      · intro he
        rcases List.mem_map.mp hto with ⟨bc, hbc, hbce⟩
        obtain ⟨hc1, hcmem⟩ := mem_creditorsOf hbc
        have heq : bc = b := List.inj_on_of_nodup_map hnd hcmem hb (by rw [hbce, he])
        rw [heq] at hc1
        linarith [habs.2]

/-- C5 (witness at a concrete distinct-name list). -/
theorem C5_witness :
    (creditorsOf [⟨"A", 5 / 100⟩, ⟨"B", -(5 / 100)⟩]).Sorted creditorGE :=
  (C5_partition_sort [⟨"A", 5 / 100⟩, ⟨"B", -(5 / 100)⟩] (by simp)).1


/-- C1 (counterexample): all amounts are two-decimal values and sum exactly to
zero, yet because `-0.01` entries are inside the exclusion tolerance the
debtor side is empty, no settlement is emitted, and `"A"` is left at `0.03`,
outside the promised `0.01` of zero. -/
theorem C1_counterexample :
    (∀ b ∈ ([⟨"A", 3 / 100⟩, ⟨"B", -(1 / 100)⟩, ⟨"C", -(1 / 100)⟩, ⟨"D", -(1 / 100)⟩] :
        List Balance), IsCents b.amount) ∧
    (([⟨"A", 3 / 100⟩, ⟨"B", -(1 / 100)⟩, ⟨"C", -(1 / 100)⟩, ⟨"D", -(1 / 100)⟩] :
        List Balance).map Balance.amount).sum = 0 ∧
    ¬ (∀ b ∈ ([⟨"A", 3 / 100⟩, ⟨"B", -(1 / 100)⟩, ⟨"C", -(1 / 100)⟩, ⟨"D", -(1 / 100)⟩] :
        List Balance),
      |applySettlements (calculateSettlements
        [⟨"A", 3 / 100⟩, ⟨"B", -(1 / 100)⟩, ⟨"C", -(1 / 100)⟩, ⟨"D", -(1 / 100)⟩]) b| ≤
          1 / 100) := by
  have h : calculateSettlements
      [⟨"A", 3 / 100⟩, ⟨"B", -(1 / 100)⟩, ⟨"C", -(1 / 100)⟩, ⟨"D", -(1 / 100)⟩] = [] := by
    norm_num [calculateSettlements, creditorsOf, debtorsOf, settleLoop, List.insertionSort,
      List.orderedInsert, creditorGE, debtorLE, roundToTwoDecimals, List.filter_cons,
      abs_of_nonneg, abs_of_nonpos, abs_neg, min_def]
  refine ⟨?_, by norm_num, ?_⟩
  · intro b hb
    simp only [List.mem_cons, List.not_mem_nil, or_false] at hb
    rcases hb with rfl | rfl | rfl | rfl
    · exact ⟨3, by norm_num⟩
    · exact ⟨-1, by norm_num⟩
    · exact ⟨-1, by norm_num⟩
    · exact ⟨-1, by norm_num⟩
  · intro hall
    have := hall ⟨"A", 3 / 100⟩ (by simp)
    rw [h] at this
    simp only [applySettlements, paidBy_nil, paidTo_nil] at this
    rw [abs_le] at this
    norm_num at this

/-- C1 (amended): for a balance list with pairwise-distinct names whose
amounts are two-decimal values summing to (within the `0.01` tolerance) zero,
and in which every balance inside the `±0.01` tolerance is exactly zero,
applying every emitted settlement (debtor `+= amount`, creditor `-= amount`)
leaves every balance within `0.01` of zero (indeed exactly at zero).  The
added hypotheses are forced by `C1_counterexample` (nonzero dead-zone
balances) and by the duplicate-name ambiguity of applying settlements by
name. -/
theorem C1_settlement_correctness (bs : List Balance)
    (hnd : (bs.map Balance.name).Nodup)
    (hcents : ∀ b ∈ bs, IsCents b.amount)
    (hzero : ∀ b ∈ bs, |b.amount| ≤ 1 / 100 → b.amount = 0)
    (hsum : |(bs.map Balance.amount).sum| < 1 / 100) :
    ∀ b ∈ bs, |applySettlements (calculateSettlements bs) b| ≤ 1 / 100 := by
  have hsumc : IsCents ((bs.map Balance.amount).sum) := list_sum_cents bs Balance.amount hcents
  have hsum0 : (bs.map Balance.amount).sum = 0 := by
    rcases le_or_lt 0 ((bs.map Balance.amount).sum) with h | h
    · exact cents_small_nonneg_eq_zero hsumc h hsum
    · exact cents_small_nonpos_eq_zero hsumc (le_of_lt h) hsum
  have hE : ((bs.filter (fun b => decide (|b.amount| ≤ 1 / 100))).map Balance.amount).sum = 0 := by
    apply list_sum_zero
    intro b hb
    obtain ⟨hmem, hcond⟩ := List.mem_filter.mp hb
    exact hzero b hmem (of_decide_eq_true hcond)
  have hCD : ((bs.filter (fun b => decide (1 / 100 < b.amount))).map Balance.amount).sum +
      ((bs.filter (fun b => decide (b.amount < -(1 / 100)))).map Balance.amount).sum = 0 := by
    have hpart := sum_partition bs
    rw [hsum0] at hpart
    linarith
  have hsumC : ((creditorsOf bs).map Balance.amount).sum =
      ((bs.filter (fun b => decide (1 / 100 < b.amount))).map Balance.amount).sum :=
    ((List.perm_insertionSort creditorGE _).map Balance.amount).sum_eq
  have hsumD : ((debtorsOf bs).map Balance.amount).sum =
      ((bs.filter (fun b => decide (b.amount < -(1 / 100)))).map Balance.amount).sum :=
    ((List.perm_insertionSort debtorLE _).map Balance.amount).sum_eq
  have hndC : ((creditorsOf bs).map Balance.name).Nodup :=
    (((List.perm_insertionSort creditorGE _).map Balance.name).nodup_iff).mpr
      (hnd.sublist ((List.filter_sublist bs).map Balance.name))
  have hndD : ((debtorsOf bs).map Balance.name).Nodup :=
    (((List.perm_insertionSort debtorLE _).map Balance.name).nodup_iff).mpr
      (hnd.sublist ((List.filter_sublist bs).map Balance.name))
  have hdisj : ∀ n, n ∈ (creditorsOf bs).map Balance.name →
      n ∈ (debtorsOf bs).map Balance.name → False := by
    intro n h1 h2
    rcases List.mem_map.mp h1 with ⟨bc, hbc, hbce⟩
    rcases List.mem_map.mp h2 with ⟨bd, hbd, hbde⟩
    obtain ⟨hc1, hcmem⟩ := mem_creditorsOf hbc
    obtain ⟨hd1, hdmem⟩ := mem_debtorsOf hbd
    have heq : bc = bd := List.inj_on_of_nodup_map hnd hcmem hdmem (by rw [hbce, hbde])
    rw [heq] at hc1
    linarith
  have hndCD : (((creditorsOf bs) ++ (debtorsOf bs)).map Balance.name).Nodup := by
    rw [List.map_append, List.nodup_append]
    exact ⟨hndC, hndD, fun n h1 h2 => hdisj n h1 h2⟩
  have hCb : ∀ b ∈ creditorsOf bs, 1 / 100 ≤ b.amount :=
    fun b hb => le_of_lt (mem_creditorsOf hb).1
  have hDb : ∀ b ∈ debtorsOf bs, b.amount ≤ -(1 / 100) :=
    fun b hb => le_of_lt (mem_debtorsOf hb).1
  have hcentsC : ∀ b ∈ creditorsOf bs, IsCents b.amount :=
    fun b hb => hcents b (mem_creditorsOf hb).2
  have hcentsD : ∀ b ∈ debtorsOf bs, IsCents b.amount :=
    fun b hb => hcents b (mem_debtorsOf hb).2
  have hsignC : ∀ b ∈ creditorsOf bs, 0 ≤ b.amount := by
    intro b hb
    have := hCb b hb
    linarith
  have hsignD : ∀ b ∈ debtorsOf bs, b.amount ≤ 0 := by
    intro b hb
    have := hDb b hb
    linarith
  obtain ⟨hdis2, hdis3⟩ := settleLoop_discharge
    ((creditorsOf bs).length + (debtorsOf bs).length) (creditorsOf bs) (debtorsOf bs)
    (le_refl _) hcentsC hcentsD hCb hDb hndCD (by rw [hsumC, hsumD]; exact hCD)
  have hmem := settleLoop_mem ((creditorsOf bs).length + (debtorsOf bs).length)
    (creditorsOf bs) (debtorsOf bs) hsignC hsignD
  intro b hb
  rw [calculateSettlements_eq]
  simp only [applySettlements]
  by_cases h1 : 1 / 100 < b.amount
  · have hbc : b ∈ creditorsOf bs := mem_creditorsOf_of hb h1
    have hpt := hdis2 b hbc
    have hnotin : b.name ∉ (debtorsOf bs).map Balance.name :=
      fun hmemd => hdisj b.name (List.mem_map.mpr ⟨b, hbc, rfl⟩) hmemd
    have hpb : paidBy b.name (settleLoop ((creditorsOf bs).length + (debtorsOf bs).length)
        (creditorsOf bs) (debtorsOf bs)) = 0 :=
      paidBy_eq_zero (fun s hs he =>
        hnotin (by rw [← he]; exact (hmem s hs).2.2))
    rw [hpt, hpb]
    norm_num
  · by_cases h2 : b.amount < -(1 / 100)
    · have hbd : b ∈ debtorsOf bs := mem_debtorsOf_of hb h2
      have hpb := hdis3 b hbd
      have hnotin : b.name ∉ (creditorsOf bs).map Balance.name :=
        fun hmemc => hdisj b.name hmemc (List.mem_map.mpr ⟨b, hbd, rfl⟩)
      have hpt : paidTo b.name (settleLoop ((creditorsOf bs).length + (debtorsOf bs).length)
          (creditorsOf bs) (debtorsOf bs)) = 0 :=
        paidTo_eq_zero (fun s hs he =>
          hnotin (by rw [← he]; exact (hmem s hs).2.1))
      rw [hpt, hpb]
      norm_num
    · have habs : |b.amount| ≤ 1 / 100 := abs_le.mpr ⟨by linarith, by linarith⟩
      have hz := hzero b hb habs
      have hnc : b.name ∉ (creditorsOf bs).map Balance.name := by
        intro hmm
        rcases List.mem_map.mp hmm with ⟨bc, hbc, hbce⟩
        obtain ⟨hclt, hcmem⟩ := mem_creditorsOf hbc
        have heq : bc = b := List.inj_on_of_nodup_map hnd hcmem hb hbce
        rw [heq, hz] at hclt
        norm_num at hclt
      have hndn : b.name ∉ (debtorsOf bs).map Balance.name := by
        intro hmm
        rcases List.mem_map.mp hmm with ⟨bd, hbd, hbde⟩
        obtain ⟨hdlt, hdmem⟩ := mem_debtorsOf hbd
        have heq : bd = b := List.inj_on_of_nodup_map hnd hdmem hb hbde
        rw [heq, hz] at hdlt
        norm_num at hdlt
      have hpt : paidTo b.name (settleLoop ((creditorsOf bs).length + (debtorsOf bs).length)
          (creditorsOf bs) (debtorsOf bs)) = 0 :=
        paidTo_eq_zero (fun s hs he =>
          hnc (by rw [← he]; exact (hmem s hs).2.1))
      have hpb : paidBy b.name (settleLoop ((creditorsOf bs).length + (debtorsOf bs).length)
          (creditorsOf bs) (debtorsOf bs)) = 0 :=
        paidBy_eq_zero (fun s hs he =>
          hndn (by rw [← he]; exact (hmem s hs).2.2))
      rw [hpt, hpb, hz]
      norm_num

/-- C1 (witness at a concrete input). -/
theorem C1_witness :
    |applySettlements (calculateSettlements [⟨"A", 5 / 100⟩, ⟨"B", -(5 / 100)⟩])
      ⟨"A", 5 / 100⟩| ≤ 1 / 100 := by
  apply C1_settlement_correctness [⟨"A", 5 / 100⟩, ⟨"B", -(5 / 100)⟩]
    (by simp)
    (by
      intro b hb
      simp only [List.mem_cons, List.not_mem_nil, or_false] at hb
      rcases hb with rfl | rfl
      · exact ⟨5, by norm_num⟩
      · exact ⟨-5, by norm_num⟩)
    (by
      intro b hb habs
      simp only [List.mem_cons, List.not_mem_nil, or_false] at hb
      exfalso
      rcases hb with rfl | rfl <;>
        (rw [abs_le] at habs
         norm_num at habs))
    (by norm_num)
    ⟨"A", 5 / 100⟩ (by simp)


/-- C4 (counterexample): with expenses `0.014` (A pays for B) and `0.006`
(B pays for A), the source hands the planner `round2(0.014 - 0.006) = 0.01`
for A, while the claim's formula `round2(round2(0.014) - round2(0.006))`
gives `round2(0.01 - 0.01) = 0`. -/
theorem C4_counterexample :
    (balanceArray (calculateParticipantStats
        [⟨"1", "A"⟩, ⟨"2", "B"⟩]
        [⟨"e1", "x", 14 / 1000, "A", ["B"], "d"⟩,
         ⟨"e2", "y", 6 / 1000, "B", ["A"], "d"⟩])).map Balance.amount ≠
      (calculateParticipantStats
        [⟨"1", "A"⟩, ⟨"2", "B"⟩]
        [⟨"e1", "x", 14 / 1000, "A", ["B"], "d"⟩,
         ⟨"e2", "y", 6 / 1000, "B", ["A"], "d"⟩]).map (fun p => specNetBalance p.2) := by
  have hm : calculateParticipantStats
      [⟨"1", "A"⟩, ⟨"2", "B"⟩]
      [⟨"e1", "x", 14 / 1000, "A", ["B"], "d"⟩,
       ⟨"e2", "y", 6 / 1000, "B", ["A"], "d"⟩] =
      [("A", ⟨14 / 1000, 6 / 1000⟩), ("B", ⟨6 / 1000, 14 / 1000⟩)] := by
    rw [calculateParticipantStats_eq]
    simp [dedupFirst, paidSum, owedSum, List.count_cons, List.count_nil]
  rw [hm]
  intro hcontra
  simp only [balanceArray, specNetBalance, roundToTwoDecimals, List.map_cons, List.map_nil,
    List.cons.injEq] at hcontra
  norm_num at hcontra

/-- C4 (amended): every net balance handed to the settlement planner is
`roundToTwoDecimals` of the difference of the *unrounded* totals — a single
rounding of `totalPaid - totalOwed`, not the spec's double-rounding formula. -/
theorem C4_rounding (ps : List Participant) (es : List Expense) :
    (balanceArray (calculateParticipantStats ps es)).map Balance.amount =
      (dedupFirst (ps.map Participant.name)).map
        (fun n => roundToTwoDecimals (paidSum n es - owedSum n es)) := by
  rw [calculateParticipantStats_eq]
  simp only [balanceArray, List.map_map]
  apply List.map_congr_left
  intro n _
  rfl

/-- C6: the keys of the stats map are exactly the (first-occurrence
deduplicated) participant names — a name reference raises no error and adds no
key — and each entry's totals are sums that only collect terms whose payer
resp. involved occurrence *matches that known key*, so unknown payer or
involved names contribute nothing to any bucket. -/
theorem C6_unknown_names (ps : List Participant) (es : List Expense) :
    ((calculateParticipantStats ps es).map Prod.fst = dedupFirst (ps.map Participant.name) ∧
      ∀ n : String, n ∈ (calculateParticipantStats ps es).map Prod.fst ↔
        n ∈ ps.map Participant.name) ∧
    ∀ p ∈ calculateParticipantStats ps es,
      p.2.totalPaid = paidSum p.1 es ∧ p.2.totalOwed = owedSum p.1 es := by
  have hkeys : (calculateParticipantStats ps es).map Prod.fst =
      dedupFirst (ps.map Participant.name) := by
    rw [calculateParticipantStats_eq]
    exact map_fst_keys _ _
  refine ⟨⟨hkeys, fun n => by rw [hkeys, mem_dedupFirst]⟩, ?_⟩
  intro p hp
  rw [calculateParticipantStats_eq] at hp
  rcases List.mem_map.mp hp with ⟨n, _, rfl⟩
  exact ⟨rfl, rfl⟩

/-- C6 (witness): an expense paid by the unknown name `"Z"` leaves the only
participant's `totalPaid` at the sum over its own (empty) payer matches. -/
theorem C6_witness :
    (("A", (⟨0, 7⟩ : Stats)) : String × Stats).2.totalPaid =
      paidSum ("A", (⟨0, 7⟩ : Stats)).1 [⟨"e", "d", 7, "Z", ["A"], "t"⟩] ∧
    (("A", (⟨0, 7⟩ : Stats)) : String × Stats).2.totalOwed =
      owedSum ("A", (⟨0, 7⟩ : Stats)).1 [⟨"e", "d", 7, "Z", ["A"], "t"⟩] := by
  apply (C6_unknown_names [⟨"1", "A"⟩] [⟨"e", "d", 7, "Z", ["A"], "t"⟩]).2
  rw [calculateParticipantStats_eq]
  simp [dedupFirst, paidSum, owedSum, List.count_cons, List.count_nil]

/-- C7: the name→stats mapping is invariant under permutations of the
participant list and of the expense list, and recomputation on identical
inputs is identical (definitional in this pure model). -/
theorem C7_order_invariance (ps ps' : List Participant) (es es' : List Expense)
    (hps : List.Perm ps ps') (hes : List.Perm es es') :
    (∀ n : String, mapLookup n (calculateParticipantStats ps es) =
      mapLookup n (calculateParticipantStats ps' es')) ∧
    calculateParticipantStats ps es = calculateParticipantStats ps es := by
  refine ⟨?_, rfl⟩
  intro n
  rw [calculateParticipantStats_eq, calculateParticipantStats_eq,
    mapLookup_map_keys, mapLookup_map_keys]
  have hpaid : paidSum n es = paidSum n es' := (hes.map _).sum_eq
  have howed : owedSum n es = owedSum n es' := (hes.map _).sum_eq
  have hmemiff : n ∈ ps.map Participant.name ↔ n ∈ ps'.map Participant.name :=
    (hps.map Participant.name).mem_iff
  by_cases h : n ∈ ps.map Participant.name
  · rw [if_pos ((mem_dedupFirst _ _).mpr h),
      if_pos ((mem_dedupFirst _ _).mpr (hmemiff.mp h)), hpaid, howed]
  · rw [if_neg (fun hc => h ((mem_dedupFirst _ _).mp hc)),
      if_neg (fun hc => h (hmemiff.mpr ((mem_dedupFirst _ _).mp hc)))]

/-- C7 (witness): reversing both input lists leaves the lookup of `"A"`
unchanged. -/
theorem C7_witness :
    mapLookup "A" (calculateParticipantStats
      [⟨"1", "A"⟩, ⟨"2", "B"⟩]
      [⟨"a", "d", 10, "A", ["A", "B"], "t"⟩, ⟨"b", "d", 4, "B", ["B"], "t"⟩]) =
    mapLookup "A" (calculateParticipantStats
      [⟨"2", "B"⟩, ⟨"1", "A"⟩]
      [⟨"b", "d", 4, "B", ["B"], "t"⟩, ⟨"a", "d", 10, "A", ["A", "B"], "t"⟩]) :=
  (C7_order_invariance _ _ _ _
    (List.Perm.swap ⟨"2", "B"⟩ ⟨"1", "A"⟩ [])
    (List.Perm.swap ⟨"b", "d", 4, "B", ["B"], "t"⟩ ⟨"a", "d", 10, "A", ["A", "B"], "t"⟩ [])).1
    "A"

/-- C10: an expense with an empty `involved` list is processed without error:
its amount is still credited to the payer's `totalPaid` when the payer is a
known key (and to nothing otherwise), and no `totalOwed` changes; the
division `amount / 0` of the source is never read because the involved loop
has no iterations, so no `NaN`-like value reaches any output stat. -/
theorem C10_empty_involved (ps : List Participant) (es : List Expense) (e : Expense)
    (h : e.involved = []) :
    calculateParticipantStats ps (es ++ [e]) =
      (calculateParticipantStats ps es).map
        (fun p => if p.1 = e.payer then
          (p.1, ⟨p.2.totalPaid + e.amount, p.2.totalOwed⟩) else p) := by
  rw [calculateParticipantStats_eq, calculateParticipantStats_eq, List.map_map]
  apply List.map_congr_left
  intro n _
  simp only [Function.comp_apply]
  rw [paidSum_append, owedSum_append, paidSum_cons, paidSum_nil, owedSum_cons, owedSum_nil, h]
  simp only [List.count_nil, Nat.cast_zero, zero_mul, add_zero]
  by_cases hp : n = e.payer
  · subst hp
    simp only [if_pos rfl, eq_self_iff_true, if_true]
  · rw [if_neg (fun hc => hp hc.symm)]
    simp only [if_neg hp, add_zero]

/-- C10 (witness at a concrete empty-involved expense). -/
theorem C10_witness :
    calculateParticipantStats [⟨"1", "A"⟩] ([] ++ [⟨"e", "x", 5, "A", [], "d"⟩]) =
      (calculateParticipantStats [⟨"1", "A"⟩] []).map
        (fun p => if p.1 = (Expense.mk "e" "x" 5 "A" [] "d").payer then
          (p.1, ⟨p.2.totalPaid + (Expense.mk "e" "x" 5 "A" [] "d").amount, p.2.totalOwed⟩)
          else p) :=
  C10_empty_involved [⟨"1", "A"⟩] [] ⟨"e", "x", 5, "A", [], "d"⟩ rfl


/-- C2 (counterexample): seven participants, one expense of `0.03` paid by
`"B"` and split six ways at half a cent each.  Every per-name net rounds
independently (`-0.005` rounds to `0`, JS `Math.round` taking halves toward
`+∞`), so the rounded balances sum to `0.03`, outside the claimed `0.02`. -/
theorem C2_counterexample :
    (∀ e ∈ ([⟨"e", "x", 3 / 100, "B", ["A1", "A2", "A3", "A4", "A5", "A6"], "d"⟩] :
        List Expense),
      e.involved ≠ [] ∧ e.involved.Nodup ∧
      e.payer ∈ ([⟨"1", "A1"⟩, ⟨"2", "A2"⟩, ⟨"3", "A3"⟩, ⟨"4", "A4"⟩, ⟨"5", "A5"⟩,
        ⟨"6", "A6"⟩, ⟨"7", "B"⟩] : List Participant).map Participant.name ∧
      ∀ i ∈ e.involved, i ∈ ([⟨"1", "A1"⟩, ⟨"2", "A2"⟩, ⟨"3", "A3"⟩, ⟨"4", "A4"⟩,
        ⟨"5", "A5"⟩, ⟨"6", "A6"⟩, ⟨"7", "B"⟩] : List Participant).map Participant.name) ∧
    ¬ (|((balanceArray (calculateParticipantStats
        [⟨"1", "A1"⟩, ⟨"2", "A2"⟩, ⟨"3", "A3"⟩, ⟨"4", "A4"⟩, ⟨"5", "A5"⟩,
         ⟨"6", "A6"⟩, ⟨"7", "B"⟩]
        [⟨"e", "x", 3 / 100, "B", ["A1", "A2", "A3", "A4", "A5", "A6"], "d"⟩])).map
          Balance.amount).sum| ≤ 2 / 100) := by
  constructor
  · intro e he
    simp only [List.mem_singleton] at he
    subst he
    refine ⟨by simp, by decide, by simp, by simp⟩
  · rw [calculateParticipantStats_eq]
    simp only [List.map_cons, List.map_nil]
    have hd : dedupFirst ["A1", "A2", "A3", "A4", "A5", "A6", "B"] =
        ["A1", "A2", "A3", "A4", "A5", "A6", "B"] := by decide
    rw [hd]
    simp only [balanceArray, List.map_cons, List.map_nil, List.sum_cons, List.sum_nil,
      paidSum, owedSum, roundToTwoDecimals, List.count_cons, List.count_nil]
    simp
    norm_num
    rw [abs_of_nonneg (by norm_num : (0 : ℚ) ≤ 3 / 100)]
    norm_num

/-- C2 (amended): with every expense having a non-empty involved list, a known
payer and known involved names, the rounded per-participant nets sum to within
`0.005 × (number of participants)` of zero: the exact nets sum to zero and
each independent `roundToTwoDecimals` moves its entry by at most half a cent.
The claim's fixed `0.02` is recovered only for at most four participants and
is refuted in general by `C2_counterexample`. -/
theorem C2_zero_sum (ps : List Participant) (es : List Expense)
    (hes : ∀ e ∈ es, e.involved ≠ [] ∧ e.payer ∈ ps.map Participant.name ∧
      ∀ i ∈ e.involved, i ∈ ps.map Participant.name) :
    |((balanceArray (calculateParticipantStats ps es)).map Balance.amount).sum| ≤
      (ps.length : ℚ) * (1 / 200) := by
  rw [calculateParticipantStats_eq]
  have hkeysnd := nodup_dedupFirst (ps.map Participant.name)
  have hlist : (balanceArray ((dedupFirst (ps.map Participant.name)).map
        (fun n => (n, (⟨paidSum n es, owedSum n es⟩ : Stats))))).map Balance.amount =
      (dedupFirst (ps.map Participant.name)).map
        (fun n => roundToTwoDecimals (paidSum n es - owedSum n es)) := by
    simp only [balanceArray, List.map_map]
    apply List.map_congr_left
    intro n _
    rfl
  rw [hlist]
  have hnet : ((dedupFirst (ps.map Participant.name)).map
      (fun n => paidSum n es - owedSum n es)).sum = 0 := by
    apply sum_net_zero _ hkeysnd
    intro e he
    obtain ⟨h1, h2, h3⟩ := hes e he
    exact ⟨(mem_dedupFirst _ _).mpr h2, h1, fun i hi => (mem_dedupFirst _ _).mpr (h3 i hi)⟩
  have hsplit : ∀ n ∈ dedupFirst (ps.map Participant.name),
      roundToTwoDecimals (paidSum n es - owedSum n es) =
      (roundToTwoDecimals (paidSum n es - owedSum n es) - (paidSum n es - owedSum n es)) +
      (paidSum n es - owedSum n es) := by
    intro n _
    ring
  rw [List.map_congr_left hsplit, list_sum_map_add, hnet, add_zero]
  have herr := list_abs_sum_le (dedupFirst (ps.map Participant.name))
    (fun n => roundToTwoDecimals (paidSum n es - owedSum n es) - (paidSum n es - owedSum n es))
    (1 / 200) (fun n _ => roundToTwoDecimals_err _)
  have hlen : ((dedupFirst (ps.map Participant.name)).length : ℚ) ≤ (ps.length : ℚ) := by
    have h1 := length_dedupFirst_le (ps.map Participant.name)
    rw [List.length_map] at h1
    exact_mod_cast h1
  have hmul : ((dedupFirst (ps.map Participant.name)).length : ℚ) * (1 / 200) ≤
      (ps.length : ℚ) * (1 / 200) :=
    mul_le_mul_of_nonneg_right hlen (by norm_num)
  linarith

/-- C2 (witness at a concrete two-participant input). -/
theorem C2_witness :
    |((balanceArray (calculateParticipantStats
        [⟨"1", "A"⟩, ⟨"2", "B"⟩]
        [⟨"e", "x", 1, "A", ["A", "B"], "d"⟩])).map Balance.amount).sum| ≤
      (([⟨"1", "A"⟩, ⟨"2", "B"⟩] : List Participant).length : ℚ) * (1 / 200) := by
  apply C2_zero_sum
  intro e he
  simp only [List.mem_singleton] at he
  subst he
  refine ⟨by simp, by simp, by simp⟩

end Damfair
